import Mathlib

/-!
Terminal clock (analog and seven-segment digital): embedding and properties.

Shallow embedding of `src/main.cpp` (analog clock) and `src/main1.cpp`
(digital clock).  The curses window is a record of its size and a total
function from coordinates to glyphs; drawing routines are functions on that
record; the two render loops are step functions that return the new loop
state together with the ordered list of drawing calls the iteration makes.
Arithmetic on `double` is carried out in an arbitrary ordered field with a
floor function (executable at `ℚ`, instantiated at `ℝ` for the theorems).
-/

namespace Clock

/-! ## Integers, points and the curses window -/

/-- C `/` on `int`: the quotient truncated toward zero. -/
def cdiv (a b : Int) : Int := Int.tdiv a b

/-- C `%` on `int`: the remainder that goes with `cdiv`. -/
def cmod (a b : Int) : Int := Int.tmod a b

/-- The C++ `struct Point { int y, x; }`. -/
structure Point where
  y : Int
  x : Int
deriving DecidableEq, Repr

/-- The window `stdscr`: its size (`LINES`, `COLS`) and the glyph at each
coordinate.  Only coordinates inside the size are cells of the window. -/
structure Screen where
  LINES : Int
  COLS : Int
  cells : Int → Int → Char

/-- The curses glyph `ACS_BLOCK`, a solid block different from the blank. -/
def ACS_BLOCK : Char := '█'

/-- A coordinate is a cell of the window. -/
def Screen.inside (scr : Screen) (y x : Int) : Prop :=
  0 ≤ y ∧ y < scr.LINES ∧ 0 ≤ x ∧ x < scr.COLS

instance (scr : Screen) (y x : Int) : Decidable (scr.inside y x) := by
  unfold Screen.inside; infer_instance

/-- The curses call `mvaddch(y, x, ch)`: the move fails outside the window and
then nothing is written; inside, the cell receives the glyph. -/
def mvaddch (scr : Screen) (y x : Int) (ch : Char) : Screen :=
  if scr.inside y x then
    { scr with cells := fun r c => if r = y ∧ c = x then ch else scr.cells r c }
  else scr

/-! ## Digital clock: `src/main1.cpp` -/

/-- Source `draw_segment`: a horizontal or vertical run of `len` blocks. -/
def draw_segment (scr : Screen) (y x len : Int) (is_horizontal : Bool) : Screen :=
  if is_horizontal then
    (List.range len.toNat).foldl
      (fun (s : Screen) (i : Nat) =>
        if y ≥ 0 ∧ y < s.LINES ∧ (x + (i : Int)) ≥ 0 ∧ (x + (i : Int)) < s.COLS then
          mvaddch s y (x + (i : Int)) ACS_BLOCK
        else s) scr
  else
    (List.range len.toNat).foldl
      (fun (s : Screen) (i : Nat) =>
        if (y + (i : Int)) ≥ 0 ∧ (y + (i : Int)) < s.LINES ∧ x ≥ 0 ∧ x < s.COLS then
          mvaddch s (y + (i : Int)) x ACS_BLOCK
        else s) scr

/-- The `switch` of source `draw_digit`: which of the seven segments
(top, middle, bottom, top-left, top-right, bottom-left, bottom-right; indices
0 to 6) are lit for a digit.  Any other value lights nothing. -/
def segments (digit : Int) (i : Nat) : Bool :=
  if digit = 0 then i = 0 ∨ i = 2 ∨ i = 3 ∨ i = 4 ∨ i = 5 ∨ i = 6
  else if digit = 1 then i = 4 ∨ i = 6
  else if digit = 2 then i = 0 ∨ i = 1 ∨ i = 2 ∨ i = 4 ∨ i = 5
  else if digit = 3 then i = 0 ∨ i = 1 ∨ i = 2 ∨ i = 4 ∨ i = 6
  else if digit = 4 then i = 1 ∨ i = 3 ∨ i = 4 ∨ i = 6
  else if digit = 5 then i = 0 ∨ i = 1 ∨ i = 2 ∨ i = 3 ∨ i = 6
  else if digit = 6 then i = 0 ∨ i = 1 ∨ i = 2 ∨ i = 3 ∨ i = 5 ∨ i = 6
  else if digit = 7 then i = 0 ∨ i = 4 ∨ i = 6
  else if digit = 8 then i < 7
  else if digit = 9 then i = 0 ∨ i = 1 ∨ i = 2 ∨ i = 3 ∨ i = 4 ∨ i = 6
  else false

/-- Source `draw_digit`: the lit segments, drawn in the order top, middle,
bottom, top-left, top-right, bottom-left, bottom-right. -/
def draw_digit (scr : Screen) (start_y start_x digit scale : Int) : Screen :=
  let s0 := if segments digit 0 then draw_segment scr start_y (start_x + 1) scale true else scr
  let s1 := if segments digit 1 then
    draw_segment s0 (start_y + scale + 1) (start_x + 1) scale true else s0
  let s2 := if segments digit 2 then
    draw_segment s1 (start_y + 2 * scale + 2) (start_x + 1) scale true else s1
  let s3 := if segments digit 3 then draw_segment s2 (start_y + 1) start_x scale false else s2
  let s4 := if segments digit 4 then
    draw_segment s3 (start_y + 1) (start_x + scale + 1) scale false else s3
  let s5 := if segments digit 5 then
    draw_segment s4 (start_y + scale + 2) start_x scale false else s4
  if segments digit 6 then
    draw_segment s5 (start_y + scale + 2) (start_x + scale + 1) scale false else s5

/-- Source `clear_digit`: blanks the `scale + 2` wide, `2 * scale + 3` high
rectangle of a digit, row by row. -/
def clear_digit (scr : Screen) (start_y start_x scale : Int) : Screen :=
  let width := scale + 2
  let height := 2 * scale + 3
  (List.range height.toNat).foldl
    (fun (s : Screen) (r : Nat) =>
      (List.range width.toNat).foldl
        (fun (s : Screen) (c : Nat) =>
          if (start_y + (r : Int)) ≥ 0 ∧ (start_y + (r : Int)) < s.LINES ∧
              (start_x + (c : Int)) ≥ 0 ∧ (start_x + (c : Int)) < s.COLS then
            mvaddch s (start_y + (r : Int)) (start_x + (c : Int)) ' '
          else s) s) scr

/-- The fields of `struct tm` the clock reads. -/
structure Tm where
  tm_sec : Int
  tm_min : Int
  tm_hour : Int
deriving DecidableEq, Repr

/-- The drawing calls `init_digital_clock` makes, with their arguments. -/
inductive DigitalCall where
  | clear
  | mvprintw (y x : Int) (text : String)
  | clear_digit (start_y start_x scale : Int)
  | draw_digit (start_y start_x digit scale : Int)
  | draw_colon (y x scale : Int)
deriving DecidableEq, Repr

/-- The variables of `init_digital_clock` that live across loop iterations. -/
structure DigitalState where
  prev_tmnow : Tm
  last_scale : Int
deriving DecidableEq, Repr

/-- The values before the first iteration: `prev_tmnow = { .tm_sec = -1 }`
(the other fields zero) and `last_scale = -1`. -/
def digital_init : DigitalState := ⟨⟨-1, 0, 0⟩, -1⟩

/-- Source line `scale = max(1, min((max_y - 3) / 2, (max_x - 10) / 8))`. -/
def digital_scale (max_y max_x : Int) : Int :=
  max 1 (min (cdiv (max_y - 3) 2) (cdiv (max_x - 10) 8))

/-- Source `digit_w = scale + 2`. -/
def digit_w (scale : Int) : Int := scale + 2

/-- Source `digit_h = 2 * scale + 3`. -/
def digit_h (scale : Int) : Int := 2 * scale + 3

/-- Source `colon_spacing = scale > 1 ? 3 : 2`. -/
def colon_spacing (scale : Int) : Int := if scale > 1 then 3 else 2

/-- Source `total_w = (6 * digit_w) + (2 * colon_spacing)`. -/
def total_w (scale : Int) : Int := 6 * digit_w scale + 2 * colon_spacing scale

/-- The test of the too-small branch: `max_y < digit_h || max_x < total_w`,
with the scale computed from the same size. -/
def digital_too_small (max_y max_x : Int) : Bool :=
  decide (max_y < digit_h (digital_scale max_y max_x) ∨
    max_x < total_w (digital_scale max_y max_x))

/-- The calls of one of the three two-digit fields (source lines 171-178,
188-195, 205-212): when the frame is a first draw or the field changed, both
digits are drawn, after both rectangles were cleared unless it is a first
draw. -/
def draw_field (is_first_draw : Bool) (now prev : Int) (start_y current_x scale : Int) :
    List DigitalCall :=
  if is_first_draw ∨ now ≠ prev then
    (if ¬ is_first_draw then
      [DigitalCall.clear_digit start_y current_x scale,
       DigitalCall.clear_digit start_y (current_x + digit_w scale) scale]
     else []) ++
    [DigitalCall.draw_digit start_y current_x (cdiv now 10) scale,
     DigitalCall.draw_digit start_y (current_x + digit_w scale) (cmod now 10) scale]
  else []

/-- One iteration of the loop of `init_digital_clock`, up to the key read:
the new loop state and the drawing calls in order.  `resized_digital` is the
flag set by the signal handler, `max_y`, `max_x` the size `getmaxyx` returns
and `tmnow` the local time read in the iteration. -/
def digital_frame (st : DigitalState) (resized_digital : Bool) (max_y max_x : Int)
    (tmnow : Tm) : DigitalState × List DigitalCall :=
  let last_scale0 := if resized_digital then -1 else st.last_scale
  let scale := digital_scale max_y max_x
  let force_redraw : Bool := decide (last_scale0 ≠ scale)
  let calls0 := if force_redraw then [DigitalCall.clear] else []
  let last_scale1 := if force_redraw then scale else last_scale0
  let prev_tmnow : Tm :=
    if force_redraw then { st.prev_tmnow with tm_sec := -1 } else st.prev_tmnow
  let digit_w := scale + 2
  let digit_h := 2 * scale + 3
  let colon_spacing := if scale > 1 then 3 else 2
  let total_w := (6 * digit_w) + (2 * colon_spacing)
  if max_y < digit_h ∨ max_x < total_w then
    (⟨prev_tmnow, -1⟩,
      calls0 ++ (if ¬ force_redraw then [DigitalCall.clear] else []) ++
        [DigitalCall.mvprintw (cdiv max_y 2) (cdiv (max_x - 20) 2) "Terminal too small"])
  else
    let start_x := cdiv (max_x - total_w) 2
    let start_y := cdiv (max_y - digit_h) 2
    let is_first_draw : Bool := decide (prev_tmnow.tm_sec = -1)
    let current_x := start_x
    let hour := draw_field is_first_draw tmnow.tm_hour prev_tmnow.tm_hour start_y current_x scale
    let current_x := current_x + 2 * digit_w
    let colon1 := if is_first_draw then
      [DigitalCall.draw_colon start_y (current_x + cdiv colon_spacing 2) scale] else []
    let current_x := current_x + colon_spacing
    let minute := draw_field is_first_draw tmnow.tm_min prev_tmnow.tm_min start_y current_x scale
    let current_x := current_x + 2 * digit_w
    let colon2 := if is_first_draw then
      [DigitalCall.draw_colon start_y (current_x + cdiv colon_spacing 2) scale] else []
    let current_x := current_x + colon_spacing
    let second := draw_field is_first_draw tmnow.tm_sec prev_tmnow.tm_sec start_y current_x scale
    (⟨tmnow, last_scale1⟩, calls0 ++ hour ++ colon1 ++ minute ++ colon2 ++ second)

/-! ## Analog clock: `src/main.cpp` -/

section Analog

variable {K : Type} [LinearOrderedField K] [FloorRing K]

/-- C `round` on `double` followed by the cast to `int`: the nearest integer,
halfway cases away from zero. -/
def c_round (x : K) : Int := if 0 ≤ x then ⌊x + 1 / 2⌋ else ⌈x - 1 / 2⌉

/-- The pieces of the C math library the clock uses: `sin`, `cos` and the
constant `M_PI`. -/
structure Libm (K : Type) where
  sin : K → K
  cos : K → K
  M_PI : K

/-- Source line 64, `while (deg < 0) deg += 360.0;`. -/
def deg_raise {K : Type} [LinearOrderedField K] [FloorRing K] (deg : K) : K :=
  if _h : deg < 0 then deg_raise (deg + 360) else deg
termination_by (⌈-deg / 360⌉).toNat
decreasing_by
  have h1 : (-(deg + 360)) / 360 = -deg / 360 - 1 := by ring
  have h2 : 0 < -deg / 360 := by
    apply div_pos
    · linarith
    · norm_num
  have h3 : 0 < ⌈-deg / 360⌉ := Int.ceil_pos.mpr h2
  rw [h1, Int.ceil_sub_one]
  omega

/-- Source line 65, `while (deg >= 360.0) deg -= 360.0;`. -/
def deg_lower {K : Type} [LinearOrderedField K] [FloorRing K] (deg : K) : K :=
  if _h : deg ≥ 360 then deg_lower (deg - 360) else deg
termination_by (⌊deg / 360⌋).toNat
decreasing_by
  have h1 : (deg - 360) / 360 = deg / 360 - 1 := by ring
  have h2 : (1 : K) ≤ deg / 360 := by
    rw [le_div_iff₀ (by norm_num)]
    linarith
  have h3 : 1 ≤ ⌊deg / 360⌋ := by
    rw [Int.le_floor]
    exact_mod_cast h2
  rw [h1, Int.floor_sub_one]
  omega

/-- Source lines 63-65 of `draw_hand`: the angle in degrees, brought into
the range from 0 (included) to 360 (excluded). -/
def normalize_deg (m : Libm K) (angle : K) : K :=
  deg_lower (deg_raise (angle * 180 / m.M_PI))

/-- Source lines 75-82 of `draw_hand`: the glyph for a normalised angle. -/
def hand_char (deg : K) : Char :=
  if (deg ≥ 350 ∨ deg < 10) ∨ (deg ≥ 170 ∧ deg < 190) ∨ (deg ≥ 80 ∧ deg < 100) ∨
      (deg ≥ 260 ∧ deg < 280) then '|'
  else if (deg > 10 ∧ deg < 80) ∨ (deg > 190 ∧ deg < 260) then '/'
  else '\\'

/-- The loop of `draw_hand` (source lines 67-86) from radius `r` on, with `n`
iterations left: the cells it reaches, in order, up to the first one outside
the window, where the loop breaks.  The factor `0.5` is written `1 / 2`. -/
def hand_points_from (m : Libm K) (angle : K) (cy cx LINES COLS : Int) :
    Nat → Int → List Point
  | 0, _ => []
  | n + 1, r =>
    let fy := (cy : K) + m.sin angle * (r : K)
    let fx := (cx : K) + m.cos angle * (r : K) * (1 / 2)
    let iy := c_round fy
    let ix := c_round fx
    if iy < 0 ∨ iy ≥ LINES ∨ ix < 0 ∨ ix ≥ COLS then []
    else ⟨iy, ix⟩ :: hand_points_from m angle cy cx LINES COLS n (r + 1)

/-- The vector `points` after `draw_hand`: the loop runs `r = 1 .. length`. -/
def hand_points (m : Libm K) (angle : K) (length cy cx LINES COLS : Int) : List Point :=
  hand_points_from m angle cy cx LINES COLS length.toNat 1

/-- Source `draw_hand`: every iteration that does not break writes the glyph
at the cell and records the cell, so the writes are the recorded cells in
order.  Returns the window and the vector `points`. -/
def draw_hand (m : Libm K) (scr : Screen) (angle : K) (length cy cx : Int) :
    Screen × List Point :=
  let points := hand_points m angle length cy cx scr.LINES scr.COLS
  (points.foldl (fun s p => mvaddch s p.y p.x (hand_char (normalize_deg m angle))) scr, points)

/-- Source `clear_hand`: a blank over every recorded cell, with no test of
the coordinates. -/
def clear_hand (scr : Screen) (points : List Point) : Screen :=
  points.foldl (fun s p => mvaddch s p.y p.x ' ') scr

/-- The drawing calls of the analog `main`, with their arguments. -/
inductive AnalogCall (K : Type) where
  | clear
  | mvprintw (y x : Int) (text : String)
  | draw_static_clock (cy cx radius : Int)
  | clear_hand (points : List Point)
  | draw_hand (angle : K) (length cy cx : Int)
  | mvaddch (y x : Int) (ch : Char)

/-- The call draws part of the clock: the static face or a hand. -/
def AnalogCall.draws_clock {K : Type} : AnalogCall K → Bool
  | AnalogCall.draw_static_clock _ _ _ => true
  | AnalogCall.draw_hand _ _ _ _ => true
  | _ => false

/-- The call prints the message of the degraded state. -/
def AnalogCall.is_too_small_message {K : Type} : AnalogCall K → Bool
  | AnalogCall.mvprintw _ _ text => decide (text = "Terminal too small")
  | _ => false

/-- The variables of the analog `main` that live across loop iterations. -/
structure AnalogState where
  maxy : Int
  maxx : Int
  radius : Int
  cy : Int
  cx : Int
  prev_hour_points : List Point
  prev_min_points : List Point
  prev_sec_points : List Point

/-- Source lines 112-130: the start of the analog `main`, for the window
size `getmaxyx` returns. -/
def analog_startup (maxy maxx : Int) : AnalogState × List (AnalogCall K) :=
  let radius := min (cdiv maxy 2) (cdiv maxx 2) - 2
  let cy := cdiv maxy 2
  let cx := cdiv maxx 2
  (⟨maxy, maxx, radius, cy, cx, [], [], []⟩,
    if radius < 3 then
      [AnalogCall.clear,
       AnalogCall.mvprintw (cdiv maxy 2) (cdiv (maxx - 20) 2) "Terminal too small"]
    else [AnalogCall.draw_static_clock cy cx radius])

/-- Source line 174-176: the fractional second, minute and hour. -/
def time_sec (tmnow : Tm) (tv_nsec : Int) : K := (tmnow.tm_sec : K) + (tv_nsec : K) / 1000000000

/-- Source line 175: `min = tm_min + sec / 60.0`. -/
def time_min (tmnow : Tm) (tv_nsec : Int) : K :=
  (tmnow.tm_min : K) + time_sec tmnow tv_nsec / 60

/-- Source line 176: `hour = (tm_hour % 12) + min / 60.0`. -/
def time_hour (tmnow : Tm) (tv_nsec : Int) : K :=
  ((cmod tmnow.tm_hour 12 : Int) : K) + time_min tmnow tv_nsec / 60

/-- Source line 179: `ang_sec = (sec / 60.0) * 2.0 * M_PI - M_PI/2`. -/
def ang_sec (m : Libm K) (tmnow : Tm) (tv_nsec : Int) : K :=
  (time_sec tmnow tv_nsec / 60) * 2 * m.M_PI - m.M_PI / 2

/-- Source line 180: `ang_min = (min / 60.0) * 2.0 * M_PI - M_PI/2`. -/
def ang_min (m : Libm K) (tmnow : Tm) (tv_nsec : Int) : K :=
  (time_min tmnow tv_nsec / 60) * 2 * m.M_PI - m.M_PI / 2

/-- Source line 181: `ang_hour = (hour / 12.0) * 2.0 * M_PI - M_PI/2`. -/
def ang_hour (m : Libm K) (tmnow : Tm) (tv_nsec : Int) : K :=
  (time_hour tmnow tv_nsec / 12) * 2 * m.M_PI - m.M_PI / 2

/-- The conversion `%02d` of `snprintf`. -/
def fmt02 (n : Int) : String :=
  if 0 ≤ n ∧ n < 10 then "0" ++ toString n else toString n

/-- Source line 195: the text `HH:MM:SS` under the clock. -/
def timestr (tmnow : Tm) : String :=
  fmt02 tmnow.tm_hour ++ ":" ++ fmt02 tmnow.tm_min ++ ":" ++ fmt02 tmnow.tm_sec

/-- One iteration of the loop of the analog `main` (source lines 132-207), up
to the key read: the new loop state and the drawing calls in order.
`resized` is the flag set by the signal handler; `maxy`, `maxx` is the size
`getmaxyx` returns if the iteration asks for it; `tmnow`, `tv_nsec` the time
read in the iteration. -/
def analog_frame (m : Libm K) (st : AnalogState) (resized : Bool) (maxy maxx : Int)
    (tmnow : Tm) (tv_nsec : Int) : AnalogState × List (AnalogCall K) :=
  let st1 : AnalogState :=
    if resized then
      ⟨maxy, maxx, min (cdiv maxy 2) (cdiv maxx 2) - 2, cdiv maxy 2, cdiv maxx 2, [], [], []⟩
    else st
  let calls1 : List (AnalogCall K) :=
    if resized then
      [AnalogCall.clear,
       if st1.radius < 3 then
         AnalogCall.mvprintw (cdiv maxy 2) (cdiv (maxx - 20) 2) "Terminal too small"
       else AnalogCall.draw_static_clock st1.cy st1.cx st1.radius]
    else []
  if st1.radius < 3 then (st1, calls1)
  else
    let angh := ang_hour m tmnow tv_nsec
    let angm := ang_min m tmnow tv_nsec
    let angs := ang_sec m tmnow tv_nsec
    let lenh := max 1 (cdiv (st1.radius * 2) 5)
    let lenm := max 1 (cdiv (st1.radius * 3) 5)
    let lens := max 1 (st1.radius - 2)
    let tlen : Int := (timestr tmnow).length
    ({ st1 with
        prev_hour_points := hand_points m angh lenh st1.cy st1.cx st1.maxy st1.maxx
        prev_min_points := hand_points m angm lenm st1.cy st1.cx st1.maxy st1.maxx
        prev_sec_points := hand_points m angs lens st1.cy st1.cx st1.maxy st1.maxx },
      calls1 ++
      [AnalogCall.clear_hand st1.prev_hour_points,
       AnalogCall.clear_hand st1.prev_min_points,
       AnalogCall.clear_hand st1.prev_sec_points,
       AnalogCall.draw_hand angh lenh st1.cy st1.cx,
       AnalogCall.draw_hand angm lenm st1.cy st1.cx,
       AnalogCall.draw_hand angs lens st1.cy st1.cx,
       AnalogCall.mvaddch st1.cy st1.cx 'O',
       AnalogCall.mvprintw (min (st1.maxy - 1) (st1.cy + st1.radius + 1))
         (max 0 (st1.cx - cdiv tlen 2)) (timestr tmnow)])

end Analog

/-! ## Spec-side vocabulary for the digital display -/

/-- The digit shown at position `k` of `HH:MM:SS` (0 to 5, left to right). -/
def digit_value (t : Tm) (k : Fin 6) : Int :=
  match k with
  | 0 => cdiv t.tm_hour 10
  | 1 => cmod t.tm_hour 10
  | 2 => cdiv t.tm_min 10
  | 3 => cmod t.tm_min 10
  | 4 => cdiv t.tm_sec 10
  | 5 => cmod t.tm_sec 10

/-- The two-digit field (hour, minute or second) position `k` belongs to. -/
def field_value (t : Tm) (k : Fin 6) : Int :=
  match k with
  | 0 => t.tm_hour
  | 1 => t.tm_hour
  | 2 => t.tm_min
  | 3 => t.tm_min
  | 4 => t.tm_sec
  | 5 => t.tm_sec

/-- The left column of position `k` in a layout that starts at `start_x`. -/
def digit_column (start_x scale : Int) (k : Fin 6) : Int :=
  match k with
  | 0 => start_x
  | 1 => start_x + digit_w scale
  | 2 => start_x + 2 * digit_w scale + colon_spacing scale
  | 3 => start_x + 3 * digit_w scale + colon_spacing scale
  | 4 => start_x + 4 * digit_w scale + 2 * colon_spacing scale
  | 5 => start_x + 5 * digit_w scale + 2 * colon_spacing scale

/-- Source line 158: `start_x = (max_x - total_w) / 2`. -/
def digital_start_x (max_y max_x : Int) : Int :=
  cdiv (max_x - total_w (digital_scale max_y max_x)) 2

/-- Source line 159: `start_y = (max_y - digit_h) / 2`. -/
def digital_start_y (max_y max_x : Int) : Int :=
  cdiv (max_y - digit_h (digital_scale max_y max_x)) 2

/-- A time of day: hour 0-23, minute and second 0-59. -/
def Tm.valid (t : Tm) : Prop :=
  0 ≤ t.tm_hour ∧ t.tm_hour ≤ 23 ∧ 0 ≤ t.tm_min ∧ t.tm_min ≤ 59 ∧ 0 ≤ t.tm_sec ∧ t.tm_sec ≤ 59

instance (t : Tm) : Decidable t.valid := by
  unfold Tm.valid; infer_instance

/-- The cells of segment `i` (top, middle, bottom, top-left, top-right,
bottom-left, bottom-right) of a digit of the given scale, as offsets from the
top left corner of the digit. -/
def segment_cell (i : Nat) (scale dy dx : Int) : Prop :=
  match i with
  | 0 => dy = 0 ∧ 1 ≤ dx ∧ dx ≤ scale
  | 1 => dy = scale + 1 ∧ 1 ≤ dx ∧ dx ≤ scale
  | 2 => dy = 2 * scale + 2 ∧ 1 ≤ dx ∧ dx ≤ scale
  | 3 => dx = 0 ∧ 1 ≤ dy ∧ dy ≤ scale
  | 4 => dx = scale + 1 ∧ 1 ≤ dy ∧ dy ≤ scale
  | 5 => dx = 0 ∧ scale + 2 ≤ dy ∧ dy ≤ 2 * scale + 1
  | 6 => dx = scale + 1 ∧ scale + 2 ≤ dy ∧ dy ≤ 2 * scale + 1
  | _ => False

instance (i : Nat) (scale dy dx : Int) : Decidable (segment_cell i scale dy dx) := by
  unfold segment_cell; split <;> infer_instance

/-- The cells of the lit segments of a digit, as offsets from its corner. -/
def digit_shape (digit scale dy dx : Int) : Prop :=
  ∃ i, i < 7 ∧ segments digit i = true ∧ segment_cell i scale dy dx

instance (digit scale dy dx : Int) : Decidable (digit_shape digit scale dy dx) := by
  unfold digit_shape; infer_instance

/-- The rectangle `clear_digit` blanks: `scale + 2` wide, `2 * scale + 3`
high, top left corner at `(start_y, start_x)`. -/
def in_digit_rect (start_y start_x scale y x : Int) : Prop :=
  start_y ≤ y ∧ y < start_y + (2 * scale + 3) ∧ start_x ≤ x ∧ x < start_x + (scale + 2)

instance (start_y start_x scale y x : Int) :
    Decidable (in_digit_rect start_y start_x scale y x) := by
  unfold in_digit_rect; infer_instance

/-- Window `t` is window `s` with the glyph `ch` written at the cells of
`s` that satisfy `P`, and nothing else changed. -/
def Paints (ch : Char) (P : Int → Int → Prop) (s t : Screen) : Prop :=
  t.LINES = s.LINES ∧ t.COLS = s.COLS ∧
    (∀ y x, P y x → s.inside y x → t.cells y x = ch) ∧
    (∀ y x, ¬ (P y x ∧ s.inside y x) → t.cells y x = s.cells y x)

/-! ## Spec-side vocabulary for the hands -/

section HandPath

variable {K : Type} [LinearOrderedField K] [FloorRing K]

/-- The cell of a hand at radius `r`, before any test against the window:
`y = round(cy + sin(angle) * r)`, `x = round(cx + cos(angle) * r * 0.5)`. -/
def hand_cell (m : Libm K) (angle : K) (cy cx r : Int) : Point :=
  ⟨c_round ((cy : K) + m.sin angle * (r : K)),
    c_round ((cx : K) + m.cos angle * (r : K) * (1 / 2))⟩

/-- The unclipped path of a hand: the cells at `r = 1 .. length`. -/
def hand_path (m : Libm K) (angle : K) (length cy cx : Int) : List Point :=
  (List.range length.toNat).map (fun (i : Nat) => hand_cell m angle cy cx ((i : Int) + 1))

/-- The distance of a cell from the centre, `max(|row - cy|, |col - cx|)`. -/
def center_distance (cy cx : Int) (p : Point) : Int := max |p.y - cy| |p.x - cx|

end HandPath

/-! ## Truncated division -/

theorem cdiv_eq (a b : Int) (hb : 0 ≤ b) :
    cdiv a b = if 0 ≤ a then a / b else -((-a) / b) := by
  unfold cdiv
  split
  · next h => exact Int.tdiv_eq_ediv h hb
  · next h =>
    have h1 : a = -(-a) := by omega
    rw [h1, Int.neg_tdiv, Int.tdiv_eq_ediv (by omega) hb]
    simp

theorem cmod_eq (a b : Int) (ha : 0 ≤ a) (hb : 0 ≤ b) : cmod a b = a % b := by
  unfold cmod
  exact Int.tmod_eq_emod ha hb

/-! ## Digital layout: when the frame is the too-small frame -/

theorem digital_scale_cases (max_y max_x : Int) :
    (digital_scale max_y max_x = 1 ∧ (max_y < 7 ∨ max_x < 26)) ∨
    (2 ≤ digital_scale max_y max_x ∧
      2 * digital_scale max_y max_x + 3 ≤ max_y ∧
      8 * digital_scale max_y max_x + 10 ≤ max_x ∧
      (max_y < 2 * digital_scale max_y max_x + 5 ∨
        max_x < 8 * digital_scale max_y max_x + 18)) := by
  unfold digital_scale
  rw [cdiv_eq _ 2 (by norm_num), cdiv_eq _ 8 (by norm_num)]
  split <;> split <;> omega

/-- The too-small test, solved for the window size: besides the sizes under
5 rows or 22 columns it holds on two bands of wider windows. -/
theorem digital_too_small_iff (max_y max_x : Int) :
    digital_too_small max_y max_x = true ↔
      max_y < 5 ∨ max_x < 22 ∨ (7 ≤ max_y ∧ 26 ≤ max_x ∧ max_x < 30) ∨
        (9 ≤ max_y ∧ 34 ≤ max_x ∧ max_x < 36) := by
  unfold digital_too_small total_w digit_w digit_h colon_spacing
  rw [decide_eq_true_iff]
  rcases digital_scale_cases max_y max_x with ⟨h, h2⟩ | ⟨h1, h2, h3, h4⟩
  · rw [h]; simp only [gt_iff_lt, lt_self_iff_false, if_false]; omega
  · rw [if_pos (by omega)]; omega

/-- The frame takes the too-small branch exactly when the test holds: it
then ends with the message and keeps `last_scale = -1`. -/
theorem digital_frame_too_small (st : DigitalState) (resized_digital : Bool)
    (max_y max_x : Int) (tmnow : Tm) :
    digital_too_small max_y max_x = true ↔
      DigitalCall.mvprintw (cdiv max_y 2) (cdiv (max_x - 20) 2) "Terminal too small" ∈
        (digital_frame st resized_digital max_y max_x tmnow).2 := by
  unfold digital_too_small digital_frame total_w digit_w digit_h colon_spacing draw_field
  simp only [decide_eq_true_iff]
  constructor
  · intro h
    rw [if_pos h]
    simp
  · intro h
    by_contra hn
    rw [if_neg hn] at h
    simp only [List.mem_append] at h
    rcases h with ((((h | h) | h) | h) | h) | h <;> split at h <;> simp at h

/-- C1 (the code at the failing input): on a 7-row, 26-column window, which
fits the 5 by 22 minimum layout, the first frame clears the screen and prints
only the too-small message; on the smaller 5 by 22 window the same frame
draws the six digits. -/
theorem digital_frame_7_26_too_small :
    (digital_frame digital_init false 7 26 ⟨0, 0, 12⟩).2 =
        [DigitalCall.clear, DigitalCall.mvprintw 3 3 "Terminal too small"] ∧
      ¬ ((7 : Int) < 5 ∨ (26 : Int) < 22) ∧
      (digital_frame digital_init false 5 22 ⟨0, 0, 12⟩).2 =
        [DigitalCall.clear,
         DigitalCall.draw_digit 0 0 1 1, DigitalCall.draw_digit 0 3 2 1,
         DigitalCall.draw_colon 0 7 1,
         DigitalCall.draw_digit 0 8 0 1, DigitalCall.draw_digit 0 11 0 1,
         DigitalCall.draw_colon 0 15 1,
         DigitalCall.draw_digit 0 16 0 1, DigitalCall.draw_digit 0 19 0 1] := by
  decide

/-! ## Digital frames: which digits are cleared and redrawn -/

theorem mem_draw_field_clear (now prev sy cx sc y x s : Int) :
    DigitalCall.clear_digit y x s ∈ draw_field false now prev sy cx sc ↔
      now ≠ prev ∧ y = sy ∧ s = sc ∧ (x = cx ∨ x = cx + digit_w sc) := by
  unfold draw_field
  by_cases h : now = prev
  · simp [h]
  · simp [h]
    tauto

theorem mem_draw_field_draw (now prev sy cx sc y x d s : Int) :
    DigitalCall.draw_digit y x d s ∈ draw_field false now prev sy cx sc ↔
      now ≠ prev ∧ y = sy ∧ s = sc ∧
        ((x = cx ∧ d = cdiv now 10) ∨ (x = cx + digit_w sc ∧ d = cmod now 10)) := by
  unfold draw_field
  by_cases h : now = prev
  · simp [h]
  · simp [h]
    tauto

theorem draw_field_changed (now prev sy cx sc : Int) (h : now ≠ prev) :
    draw_field false now prev sy cx sc =
      [DigitalCall.clear_digit sy cx sc, DigitalCall.clear_digit sy (cx + digit_w sc) sc,
       DigitalCall.draw_digit sy cx (cdiv now 10) sc,
       DigitalCall.draw_digit sy (cx + digit_w sc) (cmod now 10) sc] := by
  simp [draw_field, h]

/-- A frame with the scale of the previous one, a previous time on the
screen and a window that fits: the calls are those of the three fields. -/
theorem digital_frame_incremental (st : DigitalState) (max_y max_x : Int) (tmnow : Tm)
    (hprev : st.prev_tmnow.tm_sec ≠ -1)
    (hscale : st.last_scale = digital_scale max_y max_x)
    (hfit : digital_too_small max_y max_x = false) :
    (digital_frame st false max_y max_x tmnow).2 =
      draw_field false tmnow.tm_hour st.prev_tmnow.tm_hour (digital_start_y max_y max_x)
          (digit_column (digital_start_x max_y max_x) (digital_scale max_y max_x) 0)
          (digital_scale max_y max_x) ++
        draw_field false tmnow.tm_min st.prev_tmnow.tm_min (digital_start_y max_y max_x)
          (digit_column (digital_start_x max_y max_x) (digital_scale max_y max_x) 2)
          (digital_scale max_y max_x) ++
        draw_field false tmnow.tm_sec st.prev_tmnow.tm_sec (digital_start_y max_y max_x)
          (digit_column (digital_start_x max_y max_x) (digital_scale max_y max_x) 4)
          (digital_scale max_y max_x) := by
  have hfit2 : ¬ (max_y < 2 * digital_scale max_y max_x + 3 ∨
      max_x < 6 * (digital_scale max_y max_x + 2) +
        2 * (if digital_scale max_y max_x > 1 then 3 else 2)) := by
    have := hfit
    unfold digital_too_small total_w digit_w digit_h colon_spacing at this
    simpa using this
  unfold digital_frame
  simp only [Bool.false_eq_true, if_false, hscale, ne_eq, not_true_eq_false, decide_False,
    if_neg hfit2, hprev, List.nil_append, List.append_nil]
  simp only [digit_column, digital_start_x, digital_start_y, total_w, digit_w, digit_h,
    colon_spacing]
  ring_nf

theorem digital_scale_pos (max_y max_x : Int) : 1 ≤ digital_scale max_y max_x := by
  unfold digital_scale
  exact le_max_left _ _

/-- A frame that leaves `last_scale` equal to the scale of its window did
not take the too-small branch: the next frame on the same window, with no
resize in between, fits as well. -/
theorem digital_fits_of_scale_kept (st : DigitalState) (resized_digital : Bool)
    (max_y max_x : Int) (tmnow : Tm)
    (h : (digital_frame st resized_digital max_y max_x tmnow).1.last_scale =
      digital_scale max_y max_x) :
    digital_too_small max_y max_x = false := by
  have hpos := digital_scale_pos max_y max_x
  by_contra hn
  have ht : max_y < 2 * digital_scale max_y max_x + 3 ∨
      max_x < 6 * (digital_scale max_y max_x + 2) +
        2 * (if digital_scale max_y max_x > 1 then 3 else 2) := by
    have : digital_too_small max_y max_x = true := by simpa using hn
    unfold digital_too_small total_w digit_w digit_h colon_spacing at this
    simpa using this
  unfold digital_frame at h
  simp only [if_pos ht] at h
  omega

theorem field_ne_of_digit_ne (p t : Tm) (k : Fin 6)
    (h : digit_value p k ≠ digit_value t k) : field_value t k ≠ field_value p k := by
  intro e
  apply h
  fin_cases k <;> simp only [field_value, digit_value] at e ⊢ <;> rw [e]

theorem draw_field_sub_first (now prev sy cx sc : Int) (h : now ≠ prev) :
    List.Sublist
      [DigitalCall.clear_digit sy cx sc, DigitalCall.draw_digit sy cx (cdiv now 10) sc]
      (draw_field false now prev sy cx sc) := by
  rw [draw_field_changed _ _ _ _ _ h]
  exact List.Sublist.cons₂ _ (List.Sublist.cons _ (List.Sublist.cons₂ _ (List.nil_sublist _)))

theorem draw_field_sub_second (now prev sy cx sc : Int) (h : now ≠ prev) :
    List.Sublist
      [DigitalCall.clear_digit sy (cx + digit_w sc) sc,
       DigitalCall.draw_digit sy (cx + digit_w sc) (cmod now 10) sc]
      (draw_field false now prev sy cx sc) := by
  rw [draw_field_changed _ _ _ _ _ h]
  exact List.Sublist.cons _ (List.Sublist.cons₂ _ (List.Sublist.cons _
    (List.Sublist.cons₂ _ (List.nil_sublist _))))

theorem digit_column_one (sx sc : Int) :
    digit_column sx sc 1 = digit_column sx sc 0 + digit_w sc := rfl

theorem digit_column_three (sx sc : Int) :
    digit_column sx sc 3 = digit_column sx sc 2 + digit_w sc := by
  simp only [digit_column]; ring

theorem digit_column_five (sx sc : Int) :
    digit_column sx sc 5 = digit_column sx sc 4 + digit_w sc := by
  simp only [digit_column]; ring

/-- C3: on a frame that keeps the scale of the previous frame and fits the
window, with a previously rendered time on the screen, every one of the six
positions whose digit differs between the previous and the new time is
cleared and then drawn with its new digit; so is every position whose
two-digit field differs, which at 11:59:59 to 12:00:00 is all six. -/
theorem digital_changed_digit_redrawn (st : DigitalState) (max_y max_x : Int) (tmnow : Tm)
    (k : Fin 6)
    (hprev : st.prev_tmnow.valid)
    (hscale : st.last_scale = digital_scale max_y max_x)
    (hfit : digital_too_small max_y max_x = false)
    (hk : digit_value st.prev_tmnow k ≠ digit_value tmnow k ∨
      field_value st.prev_tmnow k ≠ field_value tmnow k) :
    List.Sublist
      [DigitalCall.clear_digit (digital_start_y max_y max_x)
          (digit_column (digital_start_x max_y max_x) (digital_scale max_y max_x) k)
          (digital_scale max_y max_x),
        DigitalCall.draw_digit (digital_start_y max_y max_x)
          (digit_column (digital_start_x max_y max_x) (digital_scale max_y max_x) k)
          (digit_value tmnow k) (digital_scale max_y max_x)]
      (digital_frame st false max_y max_x tmnow).2 := by
  have hsec : st.prev_tmnow.tm_sec ≠ -1 := by
    have := hprev.2.2.2.2.1
    omega
  rw [digital_frame_incremental st max_y max_x tmnow hsec hscale hfit]
  have hf : field_value tmnow k ≠ field_value st.prev_tmnow k := by
    rcases hk with hk | hk
    · exact field_ne_of_digit_ne st.prev_tmnow tmnow k hk
    · exact fun e => hk e.symm
  revert hf hk
  fin_cases k <;> intro _ hf <;> simp only [field_value] at hf
  · exact (draw_field_sub_first _ _ _ _ _ hf).trans
      ((List.sublist_append_left _ _).trans (List.sublist_append_left _ _))
  · show List.Sublist [DigitalCall.clear_digit _ (digit_column _ _ 1) _,
      DigitalCall.draw_digit _ (digit_column _ _ 1) (cmod tmnow.tm_hour 10) _] _
    rw [digit_column_one]
    exact (draw_field_sub_second _ _ _ _ _ hf).trans
      ((List.sublist_append_left _ _).trans (List.sublist_append_left _ _))
  · exact (draw_field_sub_first _ _ _ _ _ hf).trans
      ((List.sublist_append_right _ _).trans (List.sublist_append_left _ _))
  · show List.Sublist [DigitalCall.clear_digit _ (digit_column _ _ 3) _,
      DigitalCall.draw_digit _ (digit_column _ _ 3) (cmod tmnow.tm_min 10) _] _
    rw [digit_column_three]
    exact (draw_field_sub_second _ _ _ _ _ hf).trans
      ((List.sublist_append_right _ _).trans (List.sublist_append_left _ _))
  · exact (draw_field_sub_first _ _ _ _ _ hf).trans (List.sublist_append_right _ _)
  · show List.Sublist [DigitalCall.clear_digit _ (digit_column _ _ 5) _,
      DigitalCall.draw_digit _ (digit_column _ _ 5) (cmod tmnow.tm_sec 10) _] _
    rw [digit_column_five]
    exact (draw_field_sub_second _ _ _ _ _ hf).trans (List.sublist_append_right _ _)

/-- C3 at the rollover 11:59:59 to 12:00:00 on a 5 by 22 window: all six
positions are cleared and redrawn. -/
theorem digital_changed_digit_redrawn_witness :
    (Tm.valid ⟨59, 59, 11⟩ ∧ (1 : Int) = digital_scale 5 22 ∧
      digital_too_small 5 22 = false ∧
      digit_value ⟨59, 59, 11⟩ 1 ≠ digit_value ⟨0, 0, 12⟩ 1 ∧
      field_value ⟨59, 59, 11⟩ 0 ≠ field_value ⟨0, 0, 12⟩ 0) ∧
    List.Sublist [DigitalCall.clear_digit 0 0 1, DigitalCall.draw_digit 0 0 1 1]
      (digital_frame ⟨⟨59, 59, 11⟩, 1⟩ false 5 22 ⟨0, 0, 12⟩).2 ∧
    List.Sublist [DigitalCall.clear_digit 0 3 1, DigitalCall.draw_digit 0 3 2 1]
      (digital_frame ⟨⟨59, 59, 11⟩, 1⟩ false 5 22 ⟨0, 0, 12⟩).2 ∧
    List.Sublist [DigitalCall.clear_digit 0 8 1, DigitalCall.draw_digit 0 8 0 1]
      (digital_frame ⟨⟨59, 59, 11⟩, 1⟩ false 5 22 ⟨0, 0, 12⟩).2 ∧
    List.Sublist [DigitalCall.clear_digit 0 11 1, DigitalCall.draw_digit 0 11 0 1]
      (digital_frame ⟨⟨59, 59, 11⟩, 1⟩ false 5 22 ⟨0, 0, 12⟩).2 ∧
    List.Sublist [DigitalCall.clear_digit 0 16 1, DigitalCall.draw_digit 0 16 0 1]
      (digital_frame ⟨⟨59, 59, 11⟩, 1⟩ false 5 22 ⟨0, 0, 12⟩).2 ∧
    List.Sublist [DigitalCall.clear_digit 0 19 1, DigitalCall.draw_digit 0 19 0 1]
      (digital_frame ⟨⟨59, 59, 11⟩, 1⟩ false 5 22 ⟨0, 0, 12⟩).2 :=
  ⟨⟨by decide, by decide, by decide, by decide, by decide⟩,
    digital_changed_digit_redrawn ⟨⟨59, 59, 11⟩, 1⟩ 5 22 ⟨0, 0, 12⟩ 0
      (by decide) (by decide) (by decide) (Or.inr (by decide)),
    digital_changed_digit_redrawn ⟨⟨59, 59, 11⟩, 1⟩ 5 22 ⟨0, 0, 12⟩ 1
      (by decide) (by decide) (by decide) (Or.inl (by decide)),
    digital_changed_digit_redrawn ⟨⟨59, 59, 11⟩, 1⟩ 5 22 ⟨0, 0, 12⟩ 2
      (by decide) (by decide) (by decide) (Or.inl (by decide)),
    digital_changed_digit_redrawn ⟨⟨59, 59, 11⟩, 1⟩ 5 22 ⟨0, 0, 12⟩ 3
      (by decide) (by decide) (by decide) (Or.inl (by decide)),
    digital_changed_digit_redrawn ⟨⟨59, 59, 11⟩, 1⟩ 5 22 ⟨0, 0, 12⟩ 4
      (by decide) (by decide) (by decide) (Or.inl (by decide)),
    digital_changed_digit_redrawn ⟨⟨59, 59, 11⟩, 1⟩ 5 22 ⟨0, 0, 12⟩ 5
      (by decide) (by decide) (by decide) (Or.inl (by decide))⟩

theorem digit_column_injective (sx sc : Int) (hsc : 1 ≤ sc) (j k : Fin 6)
    (h : digit_column sx sc j = digit_column sx sc k) : j = k := by
  have hc : colon_spacing sc = 2 ∨ colon_spacing sc = 3 := by
    unfold colon_spacing
    split <;> simp
  have hw : digit_w sc = sc + 2 := rfl
  fin_cases j <;> fin_cases k <;> simp only [digit_column] at h <;>
    first
      | rfl
      | (exfalso; omega)

/-- C4 (as stated, refuted): from 12:00:00 to 12:00:01 on a 5 by 22 window
at unchanged scale, the tens digit of the seconds (position 4) shows 0 before
and after, yet its rectangle is cleared and the digit drawn again. -/
theorem digital_unchanged_digit_redrawn :
    ¬ (∀ (st : DigitalState) (max_y max_x : Int) (tmnow : Tm) (k : Fin 6),
        st.prev_tmnow.valid → tmnow.valid →
        st.last_scale = digital_scale max_y max_x →
        digital_too_small max_y max_x = false →
        digit_value st.prev_tmnow k = digit_value tmnow k →
        ∀ y d s,
          DigitalCall.clear_digit y
              (digit_column (digital_start_x max_y max_x) (digital_scale max_y max_x) k) s ∉
            (digital_frame st false max_y max_x tmnow).2 ∧
          DigitalCall.draw_digit y
              (digit_column (digital_start_x max_y max_x) (digital_scale max_y max_x) k) d s ∉
            (digital_frame st false max_y max_x tmnow).2) := by
  intro h
  have h1 := (h ⟨⟨0, 0, 12⟩, 1⟩ 5 22 ⟨1, 0, 12⟩ 4 (by decide) (by decide) (by decide)
    (by decide) (by decide) 0 0 1).1
  revert h1
  decide

/-- C4 (amended): on a frame that keeps the scale of the previous frame and
fits the window, with a previously rendered time on the screen, the rectangle
of a position is cleared, and a digit drawn at it, exactly when the two-digit
field (hours, minutes or seconds) of the position differs from the previous
frame; a position of an unchanged field gets no call at all. -/
theorem digital_redraw_iff_field_changed (st : DigitalState) (max_y max_x : Int) (tmnow : Tm)
    (k : Fin 6)
    (hprev : st.prev_tmnow.valid) (hnow : tmnow.valid)
    (hscale : st.last_scale = digital_scale max_y max_x)
    (hfit : digital_too_small max_y max_x = false) :
    ((∃ y s, DigitalCall.clear_digit y
          (digit_column (digital_start_x max_y max_x) (digital_scale max_y max_x) k) s ∈
        (digital_frame st false max_y max_x tmnow).2) ↔
      field_value tmnow k ≠ field_value st.prev_tmnow k) ∧
    ((∃ y d s, DigitalCall.draw_digit y
          (digit_column (digital_start_x max_y max_x) (digital_scale max_y max_x) k) d s ∈
        (digital_frame st false max_y max_x tmnow).2) ↔
      field_value tmnow k ≠ field_value st.prev_tmnow k) := by
  have hsec : st.prev_tmnow.tm_sec ≠ -1 := by
    have := hprev.2.2.2.2.1
    omega
  have _ := hnow
  rw [digital_frame_incremental st max_y max_x tmnow hsec hscale hfit]
  have hpos := digital_scale_pos max_y max_x
  have inj := digit_column_injective (digital_start_x max_y max_x) (digital_scale max_y max_x) hpos
  have e1 := digit_column_one (digital_start_x max_y max_x) (digital_scale max_y max_x)
  have e3 := digit_column_three (digital_start_x max_y max_x) (digital_scale max_y max_x)
  have e5 := digit_column_five (digital_start_x max_y max_x) (digital_scale max_y max_x)
  simp only [List.mem_append, mem_draw_field_clear, mem_draw_field_draw, ← e1, ← e3, ← e5]
  constructor
  · constructor
    · rintro ⟨y, s, h⟩
      rcases h with (⟨hf, -, -, h | h⟩ | ⟨hf, -, -, h | h⟩) | ⟨hf, -, -, h | h⟩ <;>
        · have := inj _ _ h
          subst this
          exact hf
    · intro hf
      refine ⟨digital_start_y max_y max_x, digital_scale max_y max_x, ?_⟩
      fin_cases k <;> simp only [field_value] at hf <;> simp [hf]
  · constructor
    · rintro ⟨y, d, s, h⟩
      rcases h with (⟨hf, -, -, ⟨h, -⟩ | ⟨h, -⟩⟩ | ⟨hf, -, -, ⟨h, -⟩ | ⟨h, -⟩⟩) |
          ⟨hf, -, -, ⟨h, -⟩ | ⟨h, -⟩⟩ <;>
        · have := inj _ _ h
          subst this
          exact hf
    · intro hf
      refine ⟨digital_start_y max_y max_x, digit_value tmnow k, digital_scale max_y max_x, ?_⟩
      fin_cases k <;> simp only [field_value] at hf <;> simp [hf, digit_value]

/-! ## Writing cells -/

theorem mvaddch_LINES (scr : Screen) (y x : Int) (ch : Char) :
    (mvaddch scr y x ch).LINES = scr.LINES := by
  unfold mvaddch; split <;> rfl

theorem mvaddch_COLS (scr : Screen) (y x : Int) (ch : Char) :
    (mvaddch scr y x ch).COLS = scr.COLS := by
  unfold mvaddch; split <;> rfl

theorem mvaddch_hit (scr : Screen) (y x : Int) (ch : Char) (h : scr.inside y x) :
    (mvaddch scr y x ch).cells y x = ch := by
  unfold mvaddch; rw [if_pos h]; simp

theorem mvaddch_miss (scr : Screen) (y x r c : Int) (ch : Char)
    (h : ¬ ((r = y ∧ c = x) ∧ scr.inside r c)) :
    (mvaddch scr y x ch).cells r c = scr.cells r c := by
  unfold mvaddch
  split
  · next hin =>
    by_cases e : r = y ∧ c = x
    · exact absurd ⟨e, by rw [e.1, e.2]; exact hin⟩ h
    · simp only [e, if_false]
  · rfl

/-- The test the drawing routines make before `mvaddch` repeats the test
`mvaddch` makes itself. -/
theorem guarded_mvaddch (s : Screen) (y x : Int) (ch : Char) :
    (if y ≥ 0 ∧ y < s.LINES ∧ x ≥ 0 ∧ x < s.COLS then mvaddch s y x ch else s) =
      mvaddch s y x ch := by
  split
  · rfl
  · next h =>
    unfold mvaddch
    rw [if_neg]
    exact h

theorem inside_congr (s t : Screen) (hL : t.LINES = s.LINES) (hC : t.COLS = s.COLS)
    (y x : Int) : t.inside y x ↔ s.inside y x := by
  unfold Screen.inside; rw [hL, hC]

/-- A loop whose body writes the glyph `ch` at the cells `P a` of the window
writes it at the cells of all its iterations and leaves every other cell. -/
theorem foldl_paint {α : Type} (ch : Char) (g : Screen → α → Screen)
    (P : α → Int → Int → Prop)
    (hL : ∀ s a, (g s a).LINES = s.LINES) (hC : ∀ s a, (g s a).COLS = s.COLS)
    (hhit : ∀ s a y x, P a y x → s.inside y x → (g s a).cells y x = ch)
    (hmiss : ∀ s a y x, ¬ (P a y x ∧ s.inside y x) → (g s a).cells y x = s.cells y x)
    (l : List α) (scr : Screen) :
    (l.foldl g scr).LINES = scr.LINES ∧ (l.foldl g scr).COLS = scr.COLS ∧
    (∀ y x, (∃ a, a ∈ l ∧ P a y x) → scr.inside y x → (l.foldl g scr).cells y x = ch) ∧
    (∀ y x, ¬ ((∃ a, a ∈ l ∧ P a y x) ∧ scr.inside y x) →
      (l.foldl g scr).cells y x = scr.cells y x) := by
  induction l generalizing scr with
  | nil =>
    refine ⟨rfl, rfl, ?_, ?_⟩
    · rintro y x ⟨a, ha, -⟩
      simp at ha
    · intro y x _
      rfl
  | cons a l ih =>
    obtain ⟨iL, iC, ihit, imiss⟩ := ih (g scr a)
    have hin : ∀ y x, (g scr a).inside y x ↔ scr.inside y x :=
      inside_congr scr (g scr a) (hL scr a) (hC scr a)
    simp only [List.foldl_cons]
    refine ⟨iL.trans (hL scr a), iC.trans (hC scr a), ?_, ?_⟩
    · rintro y x ⟨b, hb, hP⟩ hi
      by_cases hl : ∃ b, b ∈ l ∧ P b y x
      · exact ihit y x hl ((hin y x).mpr hi)
      · rw [imiss y x (fun h => hl h.1)]
        rcases List.mem_cons.mp hb with e | e
        · subst e
          exact hhit scr b y x hP hi
        · exact absurd ⟨b, e, hP⟩ hl
    · intro y x hn
      have h1 : ¬ ((∃ b, b ∈ l ∧ P b y x) ∧ (g scr a).inside y x) := by
        rintro ⟨⟨b, hb, hP⟩, hi⟩
        exact hn ⟨⟨b, List.mem_cons_of_mem _ hb, hP⟩, (hin y x).mp hi⟩
      have h2 : ¬ (P a y x ∧ scr.inside y x) := by
        rintro ⟨hP, hi⟩
        exact hn ⟨⟨a, List.mem_cons_self _ _, hP⟩, hi⟩
      rw [imiss y x h1, hmiss scr a y x h2]

/-! ## Erasing: `clear_hand` and `clear_digit` -/

theorem clear_hand_spec (scr : Screen) (points : List Point) :
    (clear_hand scr points).LINES = scr.LINES ∧ (clear_hand scr points).COLS = scr.COLS ∧
    (∀ y x, (∃ p, p ∈ points ∧ (y = p.y ∧ x = p.x)) → scr.inside y x →
      (clear_hand scr points).cells y x = ' ') ∧
    (∀ y x, ¬ ((∃ p, p ∈ points ∧ (y = p.y ∧ x = p.x)) ∧ scr.inside y x) →
      (clear_hand scr points).cells y x = scr.cells y x) := by
  unfold clear_hand
  refine foldl_paint ' ' _ (fun p y x => y = p.y ∧ x = p.x) ?_ ?_ ?_ ?_ points scr
  · intro s a; exact mvaddch_LINES _ _ _ _
  · intro s a; exact mvaddch_COLS _ _ _ _
  · rintro s a y x ⟨rfl, rfl⟩ hi
    exact mvaddch_hit _ _ _ _ hi
  · intro s a y x h
    exact mvaddch_miss _ _ _ _ _ _ h

theorem clear_hand_cells (scr : Screen) (points : List Point) (y x : Int) :
    (clear_hand scr points).cells y x =
      if (⟨y, x⟩ : Point) ∈ points ∧ scr.inside y x then ' ' else scr.cells y x := by
  obtain ⟨-, -, hit, miss⟩ := clear_hand_spec scr points
  have e : (∃ p, p ∈ points ∧ (y = p.y ∧ x = p.x)) ↔ (⟨y, x⟩ : Point) ∈ points := by
    constructor
    · rintro ⟨⟨py, px⟩, hp, rfl, rfl⟩
      exact hp
    · intro h
      exact ⟨⟨y, x⟩, h, rfl, rfl⟩
  split
  · next h => exact hit y x (e.mpr h.1) h.2
  · next h => exact miss y x (fun hh => h ⟨e.mp hh.1, hh.2⟩)

theorem clear_digit_spec (scr : Screen) (start_y start_x scale : Int) :
    (clear_digit scr start_y start_x scale).LINES = scr.LINES ∧
    (clear_digit scr start_y start_x scale).COLS = scr.COLS ∧
    (∀ y x, in_digit_rect start_y start_x scale y x → scr.inside y x →
      (clear_digit scr start_y start_x scale).cells y x = ' ') ∧
    (∀ y x, ¬ (in_digit_rect start_y start_x scale y x ∧ scr.inside y x) →
      (clear_digit scr start_y start_x scale).cells y x = scr.cells y x) := by
  have inner : ∀ (r : Nat) (s : Screen), _ :=
    fun (r : Nat) (s : Screen) =>
      foldl_paint ' '
        (fun (s : Screen) (c : Nat) =>
          if (start_y + (r : Int)) ≥ 0 ∧ (start_y + (r : Int)) < s.LINES ∧
              (start_x + (c : Int)) ≥ 0 ∧ (start_x + (c : Int)) < s.COLS then
            mvaddch s (start_y + (r : Int)) (start_x + (c : Int)) ' '
          else s)
        (fun (c : Nat) y x => y = start_y + (r : Int) ∧ x = start_x + (c : Int))
        (by intro s a; beta_reduce; rw [guarded_mvaddch]; exact mvaddch_LINES _ _ _ _)
        (by intro s a; beta_reduce; rw [guarded_mvaddch]; exact mvaddch_COLS _ _ _ _)
        (by
          rintro s a y x ⟨rfl, rfl⟩ hi
          beta_reduce
          rw [guarded_mvaddch]
          exact mvaddch_hit _ _ _ _ hi)
        (by
          intro s a y x h
          beta_reduce at h ⊢
          rw [guarded_mvaddch]
          exact mvaddch_miss _ _ _ _ _ _ h)
        (List.range (scale + 2).toNat) s
  have outer := foldl_paint ' '
    (fun (s : Screen) (r : Nat) =>
      (List.range (scale + 2).toNat).foldl
        (fun (s : Screen) (c : Nat) =>
          if (start_y + (r : Int)) ≥ 0 ∧ (start_y + (r : Int)) < s.LINES ∧
              (start_x + (c : Int)) ≥ 0 ∧ (start_x + (c : Int)) < s.COLS then
            mvaddch s (start_y + (r : Int)) (start_x + (c : Int)) ' '
          else s) s)
    (fun (r : Nat) y x => ∃ c : Nat, c ∈ List.range (scale + 2).toNat ∧
      (y = start_y + (r : Int) ∧ x = start_x + (c : Int)))
    (fun s r => (inner r s).1) (fun s r => (inner r s).2.1)
    (fun s r y x hP hi => (inner r s).2.2.1 y x hP hi)
    (fun s r y x h => (inner r s).2.2.2 y x h)
    (List.range (2 * scale + 3).toNat) scr
  have e : ∀ y x, (∃ r : Nat, r ∈ List.range (2 * scale + 3).toNat ∧
      ∃ c : Nat, c ∈ List.range (scale + 2).toNat ∧
        (y = start_y + (r : Int) ∧ x = start_x + (c : Int))) ↔
      in_digit_rect start_y start_x scale y x := by
    intro y x
    unfold in_digit_rect
    simp only [List.mem_range]
    constructor
    · rintro ⟨r, hr, c, hc, rfl, rfl⟩
      omega
    · rintro ⟨h1, h2, h3, h4⟩
      refine ⟨(y - start_y).toNat, by omega, (x - start_x).toNat, by omega, by omega, by omega⟩
  unfold clear_digit
  obtain ⟨oL, oC, ohit, omiss⟩ := outer
  refine ⟨oL, oC, ?_, ?_⟩
  · intro y x h hi
    exact ohit y x ((e y x).mpr h) hi
  · intro y x h
    exact omiss y x (fun hh => h ⟨(e y x).mp hh.1, hh.2⟩)

theorem clear_digit_cells (scr : Screen) (start_y start_x scale y x : Int) :
    (clear_digit scr start_y start_x scale).cells y x =
      if in_digit_rect start_y start_x scale y x ∧ scr.inside y x then ' '
      else scr.cells y x := by
  obtain ⟨-, -, hit, miss⟩ := clear_digit_spec scr start_y start_x scale
  split
  · next h => exact hit y x h.1 h.2
  · next h => exact miss y x h

theorem Screen.ext_cells (s t : Screen) (hL : s.LINES = t.LINES) (hC : s.COLS = t.COLS)
    (hc : ∀ y x, s.cells y x = t.cells y x) : s = t := by
  cases s
  cases t
  simp only at hL hC hc
  subst hL hC
  congr
  funext y x
  exact hc y x

/-- C8: erasing is idempotent.  `clear_hand` applied twice to the same
point sequence gives the window of one application, which has a blank at
every listed cell of the window and the old glyph everywhere else; the same
holds for `clear_digit` and the cells of its rectangle. -/
theorem clear_idempotent (scr : Screen) (points : List Point)
    (start_y start_x scale : Int) :
    (clear_hand (clear_hand scr points) points = clear_hand scr points ∧
      ∀ y x, (clear_hand scr points).cells y x =
        if (⟨y, x⟩ : Point) ∈ points ∧ scr.inside y x then ' ' else scr.cells y x) ∧
    (clear_digit (clear_digit scr start_y start_x scale) start_y start_x scale =
        clear_digit scr start_y start_x scale ∧
      ∀ y x, (clear_digit scr start_y start_x scale).cells y x =
        if in_digit_rect start_y start_x scale y x ∧ scr.inside y x then ' '
        else scr.cells y x) := by
  refine ⟨⟨?_, clear_hand_cells scr points⟩, ⟨?_, clear_digit_cells scr start_y start_x scale⟩⟩
  · obtain ⟨hL, hC, -, -⟩ := clear_hand_spec scr points
    obtain ⟨hL2, hC2, -, -⟩ := clear_hand_spec (clear_hand scr points) points
    apply Screen.ext_cells _ _ hL2 hC2
    intro y x
    have hi := inside_congr scr _ hL hC y x
    rw [clear_hand_cells (clear_hand scr points), clear_hand_cells scr]
    by_cases h : (⟨y, x⟩ : Point) ∈ points ∧ scr.inside y x
    · rw [if_pos h, if_pos ⟨h.1, hi.mpr h.2⟩]
    · rw [if_neg h, if_neg (fun hh => h ⟨hh.1, hi.mp hh.2⟩)]
  · obtain ⟨hL, hC, -, -⟩ := clear_digit_spec scr start_y start_x scale
    obtain ⟨hL2, hC2, -, -⟩ :=
      clear_digit_spec (clear_digit scr start_y start_x scale) start_y start_x scale
    apply Screen.ext_cells _ _ hL2 hC2
    intro y x
    have hi := inside_congr scr _ hL hC y x
    rw [clear_digit_cells (clear_digit scr start_y start_x scale), clear_digit_cells scr]
    by_cases h : in_digit_rect start_y start_x scale y x ∧ scr.inside y x
    · rw [if_pos h, if_pos ⟨h.1, hi.mpr h.2⟩]
    · rw [if_neg h, if_neg (fun hh => h ⟨hh.1, hi.mp hh.2⟩)]

/-! ## Drawing a digit -/

theorem Paints.none (ch : Char) (s : Screen) : Paints ch (fun _ _ => False) s s :=
  ⟨rfl, rfl, fun _ _ h => h.elim, fun _ _ _ => rfl⟩

theorem Paints.mono (ch : Char) (P Q : Int → Int → Prop) (s t : Screen)
    (h : Paints ch P s t) (e : ∀ y x, P y x ↔ Q y x) : Paints ch Q s t := by
  obtain ⟨hL, hC, hit, miss⟩ := h
  exact ⟨hL, hC, fun y x hq hi => hit y x ((e y x).mpr hq) hi,
    fun y x hn => miss y x (fun hh => hn ⟨(e y x).mp hh.1, hh.2⟩)⟩

theorem Paints.then (ch : Char) (P Q : Int → Int → Prop) (s t u : Screen)
    (h1 : Paints ch P s t) (h2 : Paints ch Q t u) :
    Paints ch (fun y x => P y x ∨ Q y x) s u := by
  obtain ⟨hL, hC, hit, miss⟩ := h1
  obtain ⟨hL2, hC2, hit2, miss2⟩ := h2
  have hin := inside_congr s t hL hC
  refine ⟨hL2.trans hL, hC2.trans hC, ?_, ?_⟩
  · intro y x hpq hi
    by_cases hq : Q y x
    · exact hit2 y x hq ((hin y x).mpr hi)
    · rw [miss2 y x (fun hh => hq hh.1)]
      rcases hpq with hp | hq2
      · exact hit y x hp hi
      · exact absurd hq2 hq
  · intro y x hn
    rw [miss2 y x (fun hh => hn ⟨Or.inr hh.1, (hin y x).mp hh.2⟩),
      miss y x (fun hh => hn ⟨Or.inl hh.1, hh.2⟩)]

theorem draw_segment_paints (scr : Screen) (y0 x0 len : Int) (is_horizontal : Bool) :
    Paints ACS_BLOCK
      (fun y x =>
        if is_horizontal then y = y0 ∧ x0 ≤ x ∧ x < x0 + len
        else x = x0 ∧ y0 ≤ y ∧ y < y0 + len)
      scr (draw_segment scr y0 x0 len is_horizontal) := by
  unfold draw_segment
  cases is_horizontal
  · simp only [Bool.false_eq_true, if_false]
    have h := foldl_paint ACS_BLOCK
      (fun (s : Screen) (i : Nat) =>
        if (y0 + (i : Int)) ≥ 0 ∧ (y0 + (i : Int)) < s.LINES ∧ x0 ≥ 0 ∧ x0 < s.COLS then
          mvaddch s (y0 + (i : Int)) x0 ACS_BLOCK
        else s)
      (fun (i : Nat) y x => y = y0 + (i : Int) ∧ x = x0)
      (by intro s a; beta_reduce; rw [guarded_mvaddch]; exact mvaddch_LINES _ _ _ _)
      (by intro s a; beta_reduce; rw [guarded_mvaddch]; exact mvaddch_COLS _ _ _ _)
      (by
        rintro s a y x ⟨rfl, rfl⟩ hi
        beta_reduce
        rw [guarded_mvaddch]
        exact mvaddch_hit _ _ _ _ hi)
      (by
        intro s a y x h
        beta_reduce at h ⊢
        rw [guarded_mvaddch]
        exact mvaddch_miss _ _ _ _ _ _ h)
      (List.range len.toNat) scr
    refine Paints.mono _ _ _ _ _ h ?_
    intro y x
    simp only [List.mem_range]
    constructor
    · rintro ⟨i, hi, rfl, rfl⟩
      omega
    · rintro ⟨h1, h2, h3⟩
      exact ⟨(y - y0).toNat, by omega, by omega, h1⟩
  · simp only [if_true]
    have h := foldl_paint ACS_BLOCK
      (fun (s : Screen) (i : Nat) =>
        if y0 ≥ 0 ∧ y0 < s.LINES ∧ (x0 + (i : Int)) ≥ 0 ∧ (x0 + (i : Int)) < s.COLS then
          mvaddch s y0 (x0 + (i : Int)) ACS_BLOCK
        else s)
      (fun (i : Nat) y x => y = y0 ∧ x = x0 + (i : Int))
      (by intro s a; beta_reduce; rw [guarded_mvaddch]; exact mvaddch_LINES _ _ _ _)
      (by intro s a; beta_reduce; rw [guarded_mvaddch]; exact mvaddch_COLS _ _ _ _)
      (by
        rintro s a y x ⟨rfl, rfl⟩ hi
        beta_reduce
        rw [guarded_mvaddch]
        exact mvaddch_hit _ _ _ _ hi)
      (by
        intro s a y x h
        beta_reduce at h ⊢
        rw [guarded_mvaddch]
        exact mvaddch_miss _ _ _ _ _ _ h)
      (List.range len.toNat) scr
    refine Paints.mono _ _ _ _ _ h ?_
    intro y x
    simp only [List.mem_range]
    constructor
    · rintro ⟨i, hi, rfl, rfl⟩
      omega
    · rintro ⟨h1, h2, h3⟩
      exact ⟨(x - x0).toNat, by omega, h1, by omega⟩

/-- One step of `draw_digit`: the segment is drawn when it is lit. -/
theorem draw_lit_segment_paints (lit : Bool) (scr : Screen) (y0 x0 len : Int)
    (is_horizontal : Bool) :
    Paints ACS_BLOCK
      (fun y x => lit = true ∧
        if is_horizontal then y = y0 ∧ x0 ≤ x ∧ x < x0 + len
        else x = x0 ∧ y0 ≤ y ∧ y < y0 + len)
      scr (if lit then draw_segment scr y0 x0 len is_horizontal else scr) := by
  cases lit
  · simp only [Bool.false_eq_true, if_false, false_and]
    exact Paints.none _ _
  · simp only [if_true, true_and]
    exact draw_segment_paints scr y0 x0 len is_horizontal

theorem draw_digit_paints (scr : Screen) (start_y start_x digit scale : Int) :
    Paints ACS_BLOCK (fun y x => digit_shape digit scale (y - start_y) (x - start_x))
      scr (draw_digit scr start_y start_x digit scale) := by
  unfold draw_digit
  have h := Paints.then _ _ _ _ _ _ (Paints.then _ _ _ _ _ _ (Paints.then _ _ _ _ _ _
    (Paints.then _ _ _ _ _ _ (Paints.then _ _ _ _ _ _ (Paints.then _ _ _ _ _ _
      (draw_lit_segment_paints (segments digit 0) scr start_y (start_x + 1) scale true)
      (draw_lit_segment_paints (segments digit 1) _ (start_y + scale + 1) (start_x + 1)
        scale true))
      (draw_lit_segment_paints (segments digit 2) _ (start_y + 2 * scale + 2) (start_x + 1)
        scale true))
      (draw_lit_segment_paints (segments digit 3) _ (start_y + 1) start_x scale false))
      (draw_lit_segment_paints (segments digit 4) _ (start_y + 1) (start_x + scale + 1)
        scale false))
      (draw_lit_segment_paints (segments digit 5) _ (start_y + scale + 2) start_x scale false))
      (draw_lit_segment_paints (segments digit 6) _ (start_y + scale + 2)
        (start_x + scale + 1) scale false)
  refine Paints.mono _ _ _ _ _ h ?_
  intro y x
  simp only [if_true, Bool.false_eq_true, if_false]
  unfold digit_shape
  constructor
  · rintro ((((((⟨h, g⟩ | ⟨h, g⟩) | ⟨h, g⟩) | ⟨h, g⟩) | ⟨h, g⟩) | ⟨h, g⟩) | ⟨h, g⟩)
    · exact ⟨0, by norm_num, h, by simp only [segment_cell]; omega⟩
    · exact ⟨1, by norm_num, h, by simp only [segment_cell]; omega⟩
    · exact ⟨2, by norm_num, h, by simp only [segment_cell]; omega⟩
    · exact ⟨3, by norm_num, h, by simp only [segment_cell]; omega⟩
    · exact ⟨4, by norm_num, h, by simp only [segment_cell]; omega⟩
    · exact ⟨5, by norm_num, h, by simp only [segment_cell]; omega⟩
    · exact ⟨6, by norm_num, h, by simp only [segment_cell]; omega⟩
  · rintro ⟨i, hi, h, g⟩
    interval_cases i <;> simp only [segment_cell] at g
    · exact Or.inl (Or.inl (Or.inl (Or.inl (Or.inl (Or.inl ⟨h, by omega⟩)))))
    · exact Or.inl (Or.inl (Or.inl (Or.inl (Or.inl (Or.inr ⟨h, by omega⟩)))))
    · exact Or.inl (Or.inl (Or.inl (Or.inl (Or.inr ⟨h, by omega⟩))))
    · exact Or.inl (Or.inl (Or.inl (Or.inr ⟨h, by omega⟩)))
    · exact Or.inl (Or.inl (Or.inr ⟨h, by omega⟩))
    · exact Or.inl (Or.inr ⟨h, by omega⟩)
    · exact Or.inr ⟨h, by omega⟩

theorem digit_shape_in_rect (digit scale dy dx : Int) (h : digit_shape digit scale dy dx) :
    0 ≤ dy ∧ dy < 2 * scale + 3 ∧ 0 ≤ dx ∧ dx < scale + 2 := by
  obtain ⟨i, hi, -, g⟩ := h
  interval_cases i <;> simp only [segment_cell] at g <;> omega

/-- C10: `draw_digit` writes the block glyph exactly at the cells of the lit
segments of the digit (inside the window) and touches nothing else; those
cells all lie in the rectangle `clear_digit` blanks at the same position and
scale; hence on a window that contains the rectangle, `clear_digit` followed
by `draw_digit` of a new digit leaves the block at the new digit's segments
and a blank at every other cell of the rectangle, whatever digit was drawn
there before, and changes nothing outside the rectangle. -/
theorem draw_digit_inside_cleared_rect (scr : Screen)
    (start_y start_x digit old_digit scale y x : Int)
    (hwin : 0 ≤ start_y ∧ start_y + (2 * scale + 3) ≤ scr.LINES ∧
      0 ≤ start_x ∧ start_x + (scale + 2) ≤ scr.COLS) :
    (draw_digit scr start_y start_x digit scale).cells y x =
        (if digit_shape digit scale (y - start_y) (x - start_x) ∧ scr.inside y x
          then ACS_BLOCK else scr.cells y x) ∧
      (digit_shape digit scale (y - start_y) (x - start_x) →
        in_digit_rect start_y start_x scale y x) ∧
      (draw_digit
          (clear_digit (draw_digit scr start_y start_x old_digit scale) start_y start_x scale)
          start_y start_x digit scale).cells y x =
        (if in_digit_rect start_y start_x scale y x then
          (if digit_shape digit scale (y - start_y) (x - start_x) then ACS_BLOCK else ' ')
        else (draw_digit scr start_y start_x old_digit scale).cells y x) := by
  have hrect : digit_shape digit scale (y - start_y) (x - start_x) →
      in_digit_rect start_y start_x scale y x := by
    intro h
    have := digit_shape_in_rect digit scale _ _ h
    unfold in_digit_rect
    omega
  refine ⟨?_, hrect, ?_⟩
  · obtain ⟨-, -, hit, miss⟩ := draw_digit_paints scr start_y start_x digit scale
    split
    · next h => exact hit y x h.1 h.2
    · next h => exact miss y x h
  · obtain ⟨oL, oC, -, -⟩ := draw_digit_paints scr start_y start_x old_digit scale
    obtain ⟨cL, cC, -, -⟩ :=
      clear_digit_spec (draw_digit scr start_y start_x old_digit scale) start_y start_x scale
    obtain ⟨-, -, hit, miss⟩ := draw_digit_paints
      (clear_digit (draw_digit scr start_y start_x old_digit scale) start_y start_x scale)
      start_y start_x digit scale
    have hin1 := inside_congr scr _ oL oC y x
    have hin2 := inside_congr _ _ cL cC y x
    have hin_rect : in_digit_rect start_y start_x scale y x → scr.inside y x := by
      intro h
      unfold in_digit_rect at h
      unfold Screen.inside
      omega
    by_cases hr : in_digit_rect start_y start_x scale y x
    · rw [if_pos hr]
      by_cases hs : digit_shape digit scale (y - start_y) (x - start_x)
      · rw [if_pos hs]
        exact hit y x hs (hin2.mpr (hin1.mpr (hin_rect hr)))
      · rw [if_neg hs, miss y x (fun hh => hs hh.1), clear_digit_cells,
          if_pos ⟨hr, hin1.mpr (hin_rect hr)⟩]
    · rw [if_neg hr, miss y x (fun hh => hr (hrect hh.1)), clear_digit_cells,
        if_neg (fun hh => hr hh.1)]

/-- C10 on a 24 by 80 window: an 8 drawn over a cleared 1 at the corner, seen
at the cell of the top segment. -/
theorem draw_digit_inside_cleared_rect_witness :
    ((0 : Int) ≤ 0 ∧ (0 : Int) + (2 * 1 + 3) ≤ (⟨24, 80, fun _ _ => ' '⟩ : Screen).LINES ∧
      (0 : Int) ≤ 0 ∧ (0 : Int) + (1 + 2) ≤ (⟨24, 80, fun _ _ => ' '⟩ : Screen).COLS) ∧
    ((draw_digit ⟨24, 80, fun _ _ => ' '⟩ 0 0 8 1).cells 0 1 =
        (if digit_shape 8 1 (0 - 0) (1 - 0) ∧ (⟨24, 80, fun _ _ => ' '⟩ : Screen).inside 0 1
          then ACS_BLOCK else (⟨24, 80, fun _ _ => ' '⟩ : Screen).cells 0 1) ∧
      (digit_shape 8 1 (0 - 0) (1 - 0) → in_digit_rect 0 0 1 0 1) ∧
      (draw_digit (clear_digit (draw_digit ⟨24, 80, fun _ _ => ' '⟩ 0 0 1 1) 0 0 1)
          0 0 8 1).cells 0 1 =
        (if in_digit_rect 0 0 1 0 1 then
          (if digit_shape 8 1 (0 - 0) (1 - 0) then ACS_BLOCK else ' ')
        else (draw_digit ⟨24, 80, fun _ _ => ' '⟩ 0 0 1 1).cells 0 1)) :=
  ⟨by decide, draw_digit_inside_cleared_rect ⟨24, 80, fun _ _ => ' '⟩ 0 0 8 1 1 0 1 (by decide)⟩

/-- C4 (amended) on a 5 by 22 window from 12:00:00 to 12:00:01: the seconds
field changed, so position 4 is cleared and drawn. -/
theorem digital_redraw_iff_field_changed_witness :
    (Tm.valid ⟨0, 0, 12⟩ ∧ Tm.valid ⟨1, 0, 12⟩ ∧ (1 : Int) = digital_scale 5 22 ∧
      digital_too_small 5 22 = false) ∧
    (((∃ y s, DigitalCall.clear_digit y
          (digit_column (digital_start_x 5 22) (digital_scale 5 22) 4) s ∈
        (digital_frame ⟨⟨0, 0, 12⟩, 1⟩ false 5 22 ⟨1, 0, 12⟩).2) ↔
      field_value ⟨1, 0, 12⟩ 4 ≠ field_value ⟨0, 0, 12⟩ 4) ∧
    ((∃ y d s, DigitalCall.draw_digit y
          (digit_column (digital_start_x 5 22) (digital_scale 5 22) 4) d s ∈
        (digital_frame ⟨⟨0, 0, 12⟩, 1⟩ false 5 22 ⟨1, 0, 12⟩).2) ↔
      field_value ⟨1, 0, 12⟩ 4 ≠ field_value ⟨0, 0, 12⟩ 4)) :=
  ⟨⟨by decide, by decide, by decide, by decide⟩,
    digital_redraw_iff_field_changed ⟨⟨0, 0, 12⟩, 1⟩ 5 22 ⟨1, 0, 12⟩ 4
      (by decide) (by decide) (by decide) (by decide)⟩

/-! ## Rounding and the coordinates of a hand -/

section AnalogProofs

variable {K : Type} [LinearOrderedField K] [FloorRing K]

theorem c_round_mono {x y : K} (h : x ≤ y) : c_round x ≤ c_round y := by
  unfold c_round
  by_cases hx : 0 ≤ x
  · have hy : 0 ≤ y := le_trans hx h
    rw [if_pos hx, if_pos hy]
    exact Int.floor_le_floor (by linarith)
  · rw [if_neg hx]
    by_cases hy : 0 ≤ y
    · rw [if_pos hy]
      have h1 : ⌈x - 1 / 2⌉ ≤ 0 := by
        rw [Int.ceil_le]
        push_neg at hx
        have : x - 1 / 2 ≤ 0 := by linarith
        exact_mod_cast this
      have h2 : 0 ≤ ⌊y + 1 / 2⌋ := by
        rw [Int.le_floor]
        have : (0 : K) ≤ y + 1 / 2 := by linarith
        exact_mod_cast this
      omega
    · rw [if_neg hy]
      exact Int.ceil_le_ceil (by linarith)

theorem c_round_intCast (n : Int) : c_round (n : K) = n := by
  unfold c_round
  split
  · rw [Int.floor_eq_iff]
    constructor <;> linarith
  · rw [Int.ceil_eq_iff]
    constructor <;> linarith

/-- A coordinate of the hand at radius `r`: the centre plus a slope times
the radius, rounded.  Along the hand it moves away from the centre, in the
direction of the sign of the slope, and never turns back. -/
theorem coord_away (c : Int) (a : K) (r r2 : Int) (h0 : 0 ≤ r) (h : r ≤ r2) :
    (0 ≤ a → c ≤ c_round ((c : K) + a * (r : K)) ∧
      c_round ((c : K) + a * (r : K)) ≤ c_round ((c : K) + a * (r2 : K))) ∧
    (a ≤ 0 → c_round ((c : K) + a * (r2 : K)) ≤ c_round ((c : K) + a * (r : K)) ∧
      c_round ((c : K) + a * (r : K)) ≤ c) := by
  have hr : (0 : K) ≤ (r : K) := by exact_mod_cast h0
  have hrr : (r : K) ≤ (r2 : K) := by exact_mod_cast h
  constructor
  · intro ha
    constructor
    · have h1 : (c : K) ≤ (c : K) + a * (r : K) := by
        have := mul_nonneg ha hr
        linarith
      have := c_round_mono h1
      rwa [c_round_intCast] at this
    · apply c_round_mono
      have := mul_le_mul_of_nonneg_left hrr ha
      linarith
  · intro ha
    constructor
    · apply c_round_mono
      have := mul_le_mul_of_nonpos_left hrr ha
      linarith
    · have h1 : (c : K) + a * (r : K) ≤ (c : K) := by
        have := mul_nonpos_of_nonpos_of_nonneg ha hr
        linarith
      have := c_round_mono h1
      rwa [c_round_intCast] at this

/-- With a slope between -1 and 1 the coordinate at radius `r` is within
`r` of the centre. -/
theorem coord_near (c : Int) (a : K) (r : Int) (h0 : 0 ≤ r) (hlo : -1 ≤ a) (hhi : a ≤ 1) :
    c - r ≤ c_round ((c : K) + a * (r : K)) ∧ c_round ((c : K) + a * (r : K)) ≤ c + r := by
  have hr : (0 : K) ≤ (r : K) := by exact_mod_cast h0
  constructor
  · have h1 : ((c - r : Int) : K) ≤ (c : K) + a * (r : K) := by
      push_cast
      have := mul_le_mul_of_nonneg_right hlo hr
      linarith
    have := c_round_mono h1
    rwa [c_round_intCast] at this
  · have h1 : (c : K) + a * (r : K) ≤ ((c + r : Int) : K) := by
      push_cast
      have := mul_le_mul_of_nonneg_right hhi hr
      linarith
    have := c_round_mono h1
    rwa [c_round_intCast] at this

/-! ## The path of a hand -/

theorem hand_cell_y_away (m : Libm K) (angle : K) (cy cx r r2 : Int) (h0 : 0 ≤ r)
    (h : r ≤ r2) :
    (cy ≤ (hand_cell m angle cy cx r).y ∧
        (hand_cell m angle cy cx r).y ≤ (hand_cell m angle cy cx r2).y) ∨
      ((hand_cell m angle cy cx r2).y ≤ (hand_cell m angle cy cx r).y ∧
        (hand_cell m angle cy cx r).y ≤ cy) := by
  have hc := coord_away cy (m.sin angle) r r2 h0 h
  rcases le_total 0 (m.sin angle) with ha | ha
  · exact Or.inl (hc.1 ha)
  · exact Or.inr (hc.2 ha)

theorem hand_cell_x_away (m : Libm K) (angle : K) (cy cx r r2 : Int) (h0 : 0 ≤ r)
    (h : r ≤ r2) :
    (cx ≤ (hand_cell m angle cy cx r).x ∧
        (hand_cell m angle cy cx r).x ≤ (hand_cell m angle cy cx r2).x) ∨
      ((hand_cell m angle cy cx r2).x ≤ (hand_cell m angle cy cx r).x ∧
        (hand_cell m angle cy cx r).x ≤ cx) := by
  have e : ∀ t : Int, (cx : K) + m.cos angle * (t : K) * (1 / 2) =
      (cx : K) + (m.cos angle * (1 / 2)) * (t : K) := fun t => by ring
  have hc := coord_away cx (m.cos angle * (1 / 2)) r r2 h0 h
  simp only [hand_cell, e]
  rcases le_total 0 (m.cos angle * (1 / 2)) with ha | ha
  · exact Or.inl (hc.1 ha)
  · exact Or.inr (hc.2 ha)

/-- Along a hand the distance from the centre never decreases. -/
theorem center_distance_mono (m : Libm K) (angle : K) (cy cx r r2 : Int) (h0 : 0 ≤ r)
    (h : r ≤ r2) :
    center_distance cy cx (hand_cell m angle cy cx r) ≤
      center_distance cy cx (hand_cell m angle cy cx r2) := by
  unfold center_distance
  have hy : |(hand_cell m angle cy cx r).y - cy| ≤ |(hand_cell m angle cy cx r2).y - cy| := by
    rcases hand_cell_y_away m angle cy cx r r2 h0 h with ⟨h1, h2⟩ | ⟨h1, h2⟩
    · rw [abs_of_nonneg (by omega), abs_of_nonneg (by omega)]
      omega
    · rw [abs_of_nonpos (by omega), abs_of_nonpos (by omega)]
      omega
  have hx : |(hand_cell m angle cy cx r).x - cx| ≤ |(hand_cell m angle cy cx r2).x - cx| := by
    rcases hand_cell_x_away m angle cy cx r r2 h0 h with ⟨h1, h2⟩ | ⟨h1, h2⟩
    · rw [abs_of_nonneg (by omega), abs_of_nonneg (by omega)]
      omega
    · rw [abs_of_nonpos (by omega), abs_of_nonpos (by omega)]
      omega
  exact max_le_max hy hx

/-- With sine and cosine between -1 and 1, the cell at radius `r` is within
`r` of the centre. -/
theorem center_distance_le (m : Libm K) (angle : K) (cy cx r : Int) (h0 : 0 ≤ r)
    (hs : -1 ≤ m.sin angle ∧ m.sin angle ≤ 1) (hc : -1 ≤ m.cos angle ∧ m.cos angle ≤ 1) :
    center_distance cy cx (hand_cell m angle cy cx r) ≤ r := by
  unfold center_distance
  have e : (cx : K) + m.cos angle * (r : K) * (1 / 2) =
      (cx : K) + (m.cos angle * (1 / 2)) * (r : K) := by ring
  have hy := coord_near cy (m.sin angle) r h0 hs.1 hs.2
  have hx := coord_near cx (m.cos angle * (1 / 2)) r h0 (by linarith [hc.1]) (by linarith [hc.2])
  simp only [hand_cell, e]
  apply max_le
  · rw [abs_le]; constructor <;> omega
  · rw [abs_le]; constructor <;> omega

/-- Once a cell of the hand is outside the window, with the centre inside,
every later cell is outside. -/
theorem hand_cell_outside_mono (m : Libm K) (angle : K) (cy cx LINES COLS r r2 : Int)
    (hcen : 0 ≤ cy ∧ cy < LINES ∧ 0 ≤ cx ∧ cx < COLS) (h0 : 0 ≤ r) (h : r ≤ r2)
    (hout : (hand_cell m angle cy cx r).y < 0 ∨ (hand_cell m angle cy cx r).y ≥ LINES ∨
      (hand_cell m angle cy cx r).x < 0 ∨ (hand_cell m angle cy cx r).x ≥ COLS) :
    (hand_cell m angle cy cx r2).y < 0 ∨ (hand_cell m angle cy cx r2).y ≥ LINES ∨
      (hand_cell m angle cy cx r2).x < 0 ∨ (hand_cell m angle cy cx r2).x ≥ COLS := by
  have hy := hand_cell_y_away m angle cy cx r r2 h0 h
  have hx := hand_cell_x_away m angle cy cx r r2 h0 h
  omega

theorem hand_points_from_succ (m : Libm K) (angle : K) (cy cx LINES COLS : Int) (n : Nat)
    (r : Int) :
    hand_points_from m angle cy cx LINES COLS (n + 1) r =
      if (hand_cell m angle cy cx r).y < 0 ∨ (hand_cell m angle cy cx r).y ≥ LINES ∨
          (hand_cell m angle cy cx r).x < 0 ∨ (hand_cell m angle cy cx r).x ≥ COLS then []
      else hand_cell m angle cy cx r :: hand_points_from m angle cy cx LINES COLS n (r + 1) :=
  rfl

theorem range_map_shift (m : Libm K) (angle : K) (cy cx : Int) (n : Nat) (r : Int) :
    (List.range (n + 1)).map (fun (i : Nat) => hand_cell m angle cy cx ((i : Int) + r)) =
      hand_cell m angle cy cx r ::
        (List.range n).map (fun (i : Nat) => hand_cell m angle cy cx ((i : Int) + (r + 1))) := by
  rw [List.range_succ_eq_map, List.map_cons, List.map_map]
  congr 1
  · simp
  · apply List.map_congr_left
    intro i _
    simp only [Function.comp, Nat.succ_eq_add_one, Nat.cast_add, Nat.cast_one]
    congr 1
    ring

/-- The loop with its `break` keeps exactly the cells of the unclipped path
that are inside the window. -/
theorem hand_points_from_eq_filter (m : Libm K) (angle : K) (cy cx LINES COLS : Int)
    (hcen : 0 ≤ cy ∧ cy < LINES ∧ 0 ≤ cx ∧ cx < COLS) (n : Nat) (r : Int) (h0 : 0 ≤ r) :
    hand_points_from m angle cy cx LINES COLS n r =
      ((List.range n).map (fun (i : Nat) => hand_cell m angle cy cx ((i : Int) + r))).filter
        (fun p => decide (0 ≤ p.y ∧ p.y < LINES ∧ 0 ≤ p.x ∧ p.x < COLS)) := by
  induction n generalizing r with
  | zero => rfl
  | succ n ih =>
    rw [hand_points_from_succ, range_map_shift]
    split
    · next hout =>
      symm
      rw [List.filter_eq_nil_iff]
      intro p hp
      have hp2 : ∃ r2, r ≤ r2 ∧ p = hand_cell m angle cy cx r2 := by
        rcases List.mem_cons.mp hp with e | e
        · exact ⟨r, le_refl _, e⟩
        · obtain ⟨i, -, rfl⟩ := List.mem_map.mp e
          exact ⟨(i : Int) + (r + 1), by omega, rfl⟩
      obtain ⟨r2, hr2, rfl⟩ := hp2
      have := hand_cell_outside_mono m angle cy cx LINES COLS r r2 hcen h0 hr2 hout
      simp only [decide_eq_true_eq]
      omega
    · next hin =>
      rw [List.filter_cons_of_pos, ih (r + 1) (by omega)]
      simp only [decide_eq_true_eq]
      omega

theorem mem_hand_points_from (m : Libm K) (angle : K) (cy cx LINES COLS : Int) (n : Nat)
    (r : Int) (p : Point) (hp : p ∈ hand_points_from m angle cy cx LINES COLS n r) :
    (∃ i : Nat, i < n ∧ p = hand_cell m angle cy cx (r + (i : Int))) ∧
      (0 ≤ p.y ∧ p.y < LINES ∧ 0 ≤ p.x ∧ p.x < COLS) := by
  induction n generalizing r with
  | zero => simp [hand_points_from] at hp
  | succ n ih =>
    rw [hand_points_from_succ] at hp
    split at hp
    · simp at hp
    · next hin =>
      rcases List.mem_cons.mp hp with e | e
      · subst e
        exact ⟨⟨0, by omega, by simp⟩, by omega⟩
      · obtain ⟨⟨i, hi, rfl⟩, hb⟩ := ih (r + 1) e
        refine ⟨⟨i + 1, by omega, ?_⟩, hb⟩
        congr 1
        push_cast
        ring

theorem head_hand_points_from (m : Libm K) (angle : K) (cy cx LINES COLS : Int) (n : Nat)
    (r : Int) (p : Point)
    (hp : p ∈ (hand_points_from m angle cy cx LINES COLS n r).head?) :
    p = hand_cell m angle cy cx r := by
  cases n with
  | zero => simp [hand_points_from] at hp
  | succ n =>
    rw [hand_points_from_succ] at hp
    split at hp
    · simp at hp
    · simp only [List.head?_cons, Option.mem_def, Option.some.injEq] at hp
      exact hp.symm

theorem hand_points_from_chain (m : Libm K) (angle : K) (cy cx LINES COLS : Int) (n : Nat)
    (r : Int) (h0 : 0 ≤ r) :
    List.Chain' (fun p q => center_distance cy cx p ≤ center_distance cy cx q)
      (hand_points_from m angle cy cx LINES COLS n r) := by
  induction n generalizing r with
  | zero => simp [hand_points_from]
  | succ n ih =>
    rw [hand_points_from_succ]
    split
    · exact List.chain'_nil
    · rw [List.chain'_cons']
      refine ⟨?_, ih (r + 1) (by omega)⟩
      intro q hq
      rw [head_hand_points_from m angle cy cx LINES COLS n (r + 1) q hq]
      exact center_distance_mono m angle cy cx r (r + 1) h0 (by omega)

theorem paint_points_cells (ch : Char) (scr : Screen) (points : List Point) (y x : Int) :
    (points.foldl (fun s p => mvaddch s p.y p.x ch) scr).cells y x =
      if (⟨y, x⟩ : Point) ∈ points ∧ scr.inside y x then ch else scr.cells y x := by
  obtain ⟨-, -, hit, miss⟩ := foldl_paint ch (fun s (p : Point) => mvaddch s p.y p.x ch)
    (fun p y x => y = p.y ∧ x = p.x)
    (fun s a => mvaddch_LINES _ _ _ _) (fun s a => mvaddch_COLS _ _ _ _)
    (by
      rintro s a y x ⟨rfl, rfl⟩ hi
      exact mvaddch_hit _ _ _ _ hi)
    (fun s a y x h => mvaddch_miss _ _ _ _ _ _ h) points scr
  have e : (∃ p, p ∈ points ∧ (y = p.y ∧ x = p.x)) ↔ (⟨y, x⟩ : Point) ∈ points := by
    constructor
    · rintro ⟨⟨py, px⟩, hp, rfl, rfl⟩
      exact hp
    · intro h
      exact ⟨⟨y, x⟩, h, rfl, rfl⟩
  split
  · next h => exact hit y x (e.mpr h.1) h.2
  · next h => exact miss y x (fun hh => h ⟨e.mp hh.1, hh.2⟩)

/-- C7: with the centre inside the window, the cells `draw_hand` records
are exactly the cells of the unclipped path `r = 1 .. length` that lie inside
the window, in order (the `break` drops no inside cell); every recorded cell
is inside the window, and the glyph is written at exactly those cells. -/
theorem draw_hand_records_clipped_path (m : Libm K) (scr : Screen) (angle : K)
    (length cy cx y x : Int) (hcen : scr.inside cy cx) :
    (draw_hand m scr angle length cy cx).2 =
        (hand_path m angle length cy cx).filter (fun p => decide (scr.inside p.y p.x)) ∧
      (∀ p, p ∈ (draw_hand m scr angle length cy cx).2 → scr.inside p.y p.x) ∧
      (draw_hand m scr angle length cy cx).1.cells y x =
        (if (⟨y, x⟩ : Point) ∈
            (hand_path m angle length cy cx).filter (fun p => decide (scr.inside p.y p.x))
          then hand_char (normalize_deg m angle) else scr.cells y x) := by
  have e1 : (draw_hand m scr angle length cy cx).2 =
      (hand_path m angle length cy cx).filter (fun p => decide (scr.inside p.y p.x)) := by
    unfold draw_hand hand_points hand_path
    simp only
    rw [hand_points_from_eq_filter m angle cy cx scr.LINES scr.COLS hcen _ 1 (by norm_num)]
    apply List.filter_congr
    intro p _
    unfold Screen.inside
    rfl
  have e2 : ∀ p, p ∈ (draw_hand m scr angle length cy cx).2 → scr.inside p.y p.x := by
    intro p hp
    rw [e1] at hp
    have := (List.mem_filter.mp hp).2
    simpa using this
  refine ⟨e1, e2, ?_⟩
  have e3 : (draw_hand m scr angle length cy cx).1 =
      ((draw_hand m scr angle length cy cx).2).foldl
        (fun s p => mvaddch s p.y p.x (hand_char (normalize_deg m angle))) scr := rfl
  rw [e3, paint_points_cells, ← e1]
  by_cases h : (⟨y, x⟩ : Point) ∈ (draw_hand m scr angle length cy cx).2
  · rw [if_pos h, if_pos ⟨h, e2 _ h⟩]
  · rw [if_neg h, if_neg (fun hh => h hh.1)]

/-- C7 at `ℚ` on an 8 by 80 window: a hand of length 6 pointing straight
down from row 5 (sine 1, cosine 0). -/
theorem draw_hand_records_clipped_path_witness :
    (⟨8, 80, fun _ _ => ' '⟩ : Screen).inside 5 5 ∧
    ((draw_hand (⟨fun _ => 1, fun _ => 0, 22 / 7⟩ : Libm ℚ) ⟨8, 80, fun _ _ => ' '⟩
          0 6 5 5).2 =
        (hand_path (⟨fun _ => 1, fun _ => 0, 22 / 7⟩ : Libm ℚ) 0 6 5 5).filter
          (fun p => decide ((⟨8, 80, fun _ _ => ' '⟩ : Screen).inside p.y p.x)) ∧
      (∀ p, p ∈ (draw_hand (⟨fun _ => 1, fun _ => 0, 22 / 7⟩ : Libm ℚ)
          ⟨8, 80, fun _ _ => ' '⟩ 0 6 5 5).2 →
        (⟨8, 80, fun _ _ => ' '⟩ : Screen).inside p.y p.x) ∧
      (draw_hand (⟨fun _ => 1, fun _ => 0, 22 / 7⟩ : Libm ℚ) ⟨8, 80, fun _ _ => ' '⟩
          0 6 5 5).1.cells 6 5 =
        (if (⟨6, 5⟩ : Point) ∈
            (hand_path (⟨fun _ => 1, fun _ => 0, 22 / 7⟩ : Libm ℚ) 0 6 5 5).filter
              (fun p => decide ((⟨8, 80, fun _ _ => ' '⟩ : Screen).inside p.y p.x))
          then hand_char (normalize_deg (⟨fun _ => 1, fun _ => 0, 22 / 7⟩ : Libm ℚ) 0)
          else (⟨8, 80, fun _ _ => ' '⟩ : Screen).cells 6 5)) :=
  ⟨by decide,
    draw_hand_records_clipped_path (⟨fun _ => 1, fun _ => 0, 22 / 7⟩ : Libm ℚ)
      ⟨8, 80, fun _ _ => ' '⟩ 0 6 5 5 6 5 (by decide)⟩

/-- The bounds and the monotonicity of the recorded cells, for any sine and
cosine between -1 and 1. -/
theorem hand_points_distance (m : Libm K) (angle : K) (length cy cx LINES COLS : Int)
    (hs : -1 ≤ m.sin angle ∧ m.sin angle ≤ 1) (hc : -1 ≤ m.cos angle ∧ m.cos angle ≤ 1) :
    (∀ p, p ∈ (hand_points m angle length cy cx LINES COLS).head? →
        center_distance cy cx p ≤ 1) ∧
      (∀ p, p ∈ hand_points m angle length cy cx LINES COLS →
        center_distance cy cx p ≤ length) ∧
      List.Chain' (fun p q => center_distance cy cx p ≤ center_distance cy cx q)
        (hand_points m angle length cy cx LINES COLS) := by
  unfold hand_points
  refine ⟨?_, ?_, hand_points_from_chain m angle cy cx LINES COLS _ 1 (by norm_num)⟩
  · intro p hp
    rw [head_hand_points_from m angle cy cx LINES COLS _ 1 p hp]
    exact center_distance_le m angle cy cx 1 (by norm_num) hs hc
  · intro p hp
    obtain ⟨⟨i, hi, rfl⟩, -⟩ := mem_hand_points_from m angle cy cx LINES COLS _ 1 p hp
    have := center_distance_le m angle cy cx (1 + (i : Int)) (by omega) hs hc
    omega

/-- When the window holds every cell within `length` of the centre, as it
does for the three hands of a clock of radius 3 or more, no cell is clipped
and the hand has `length` cells. -/
theorem hand_points_from_length (m : Libm K) (angle : K) (cy cx LINES COLS : Int)
    (hs : -1 ≤ m.sin angle ∧ m.sin angle ≤ 1) (hc : -1 ≤ m.cos angle ∧ m.cos angle ≤ 1)
    (n : Nat) (r : Int) (h0 : 0 ≤ r)
    (hfit : r + n - 1 ≤ cy ∧ cy + (r + n - 1) < LINES ∧ r + n - 1 ≤ cx ∧
      cx + (r + n - 1) < COLS) :
    (hand_points_from m angle cy cx LINES COLS n r).length = n := by
  induction n generalizing r with
  | zero => rfl
  | succ n ih =>
    have hd := center_distance_le m angle cy cx r h0 hs hc
    unfold center_distance at hd
    have hy := (abs_le.mp (le_trans (le_max_left _ _) hd))
    have hx := (abs_le.mp (le_trans (le_max_right _ _) hd))
    rw [hand_points_from_succ, if_neg, List.length_cons, ih (r + 1) (by omega)]
    · push_cast at hfit ⊢
      omega
    · push_cast at hfit
      omega

/-- With at least one cell of the window on every side of the centre and a
length of at least 1, the loop records the cell at radius 1 first; what it
records is the part of the unclipped path inside the window, and the whole
path when the window holds every cell within `length` of the centre. -/
theorem hand_points_margin (m : Libm K) (angle : K) (length cy cx LINES COLS : Int)
    (hs : -1 ≤ m.sin angle ∧ m.sin angle ≤ 1) (hc : -1 ≤ m.cos angle ∧ m.cos angle ≤ 1)
    (hlen : 1 ≤ length)
    (hcen : 1 ≤ cy ∧ cy + 1 < LINES ∧ 1 ≤ cx ∧ cx + 1 < COLS) :
    (hand_points m angle length cy cx LINES COLS).head? = some (hand_cell m angle cy cx 1) ∧
      hand_points m angle length cy cx LINES COLS =
        (hand_path m angle length cy cx).filter
          (fun p => decide (0 ≤ p.y ∧ p.y < LINES ∧ 0 ≤ p.x ∧ p.x < COLS)) ∧
      (length ≤ cy ∧ cy + length < LINES ∧ length ≤ cx ∧ cx + length < COLS →
        hand_points m angle length cy cx LINES COLS = hand_path m angle length cy cx) := by
  have hfil : hand_points m angle length cy cx LINES COLS =
      (hand_path m angle length cy cx).filter
        (fun p => decide (0 ≤ p.y ∧ p.y < LINES ∧ 0 ≤ p.x ∧ p.x < COLS)) := by
    unfold hand_points hand_path
    exact hand_points_from_eq_filter m angle cy cx LINES COLS (by omega) _ 1 (by norm_num)
  refine ⟨?_, hfil, ?_⟩
  · obtain ⟨n, hn⟩ : ∃ n : Nat, length.toNat = n + 1 := ⟨length.toNat - 1, by omega⟩
    have hd := center_distance_le m angle cy cx 1 (by norm_num) hs hc
    unfold center_distance at hd
    have hy := abs_le.mp (le_trans (le_max_left _ _) hd)
    have hx := abs_le.mp (le_trans (le_max_right _ _) hd)
    unfold hand_points
    rw [hn, hand_points_from_succ, if_neg (by omega)]
    rfl
  · intro hfit
    rw [hfil, List.filter_eq_self]
    intro p hp
    unfold hand_path at hp
    obtain ⟨i, hi, rfl⟩ := List.mem_map.mp hp
    have hi2 := List.mem_range.mp hi
    have hd := center_distance_le m angle cy cx ((i : Int) + 1) (by omega) hs hc
    unfold center_distance at hd
    have hy := abs_le.mp (le_trans (le_max_left _ _) hd)
    have hx := abs_le.mp (le_trans (le_max_right _ _) hd)
    simp only [decide_eq_true_eq]
    omega

end AnalogProofs

/-- C6 (as stated, refuted): on a 10 by 10 window (radius 3) with the
centre on the last row, at `(9, 5)`, a hand of length 1 at angle `pi / 2`
reaches row 10, outside the window, at radius 1: the loop breaks at once and
`draw_hand` records no cell, so the recorded sequence has no first point. -/
theorem hand_points_empty_at_edge :
    ¬ (∀ (scr : Screen) (angle : ℝ) (length cy cx : Int),
        3 ≤ min (cdiv scr.LINES 2) (cdiv scr.COLS 2) - 2 →
        0 ≤ angle → angle < 2 * Real.pi → 1 ≤ length → scr.inside cy cx →
        (∃ p, (draw_hand (⟨Real.sin, Real.cos, Real.pi⟩ : Libm ℝ) scr angle length cy
            cx).2.head? = some p ∧ center_distance cy cx p ≤ 1) ∧
          (∀ p, p ∈ (draw_hand (⟨Real.sin, Real.cos, Real.pi⟩ : Libm ℝ) scr angle length cy
            cx).2 → center_distance cy cx p ≤ length) ∧
          List.Chain' (fun p q => center_distance cy cx p ≤ center_distance cy cx q)
            (draw_hand (⟨Real.sin, Real.cos, Real.pi⟩ : Libm ℝ) scr angle length cy cx).2) := by
  intro h
  have hpi := Real.pi_pos
  obtain ⟨⟨p, hp, -⟩, -⟩ := h ⟨10, 10, fun _ _ => ' '⟩ (Real.pi / 2) 1 9 5 (by decide)
    (by linarith) (by linarith) (by norm_num) (by decide)
  have hrow : c_round (((9 : Int) : ℝ) + Real.sin (Real.pi / 2) * ((1 : Int) : ℝ)) = 10 := by
    have e : ((9 : Int) : ℝ) + Real.sin (Real.pi / 2) * ((1 : Int) : ℝ) = ((10 : Int) : ℝ) := by
      rw [Real.sin_pi_div_two]
      push_cast
      norm_num
    rw [e, c_round_intCast]
  have hempty : (draw_hand (⟨Real.sin, Real.cos, Real.pi⟩ : Libm ℝ) ⟨10, 10, fun _ _ => ' '⟩
      (Real.pi / 2) 1 9 5).2 = [] := by
    show hand_points_from (⟨Real.sin, Real.cos, Real.pi⟩ : Libm ℝ) (Real.pi / 2) 9 5 10 10
      (1 : Int).toNat 1 = []
    have e1 : (1 : Int).toNat = 0 + 1 := by decide
    rw [e1, hand_points_from_succ, if_pos]
    right; left
    show c_round (((9 : Int) : ℝ) + Real.sin (Real.pi / 2) * ((1 : Int) : ℝ)) ≥ 10
    rw [hrow]
  rw [hempty] at hp
  simp at hp

/-- C6 (amended): over the real numbers, with `sin`, `cos` the real sine and
cosine and halfway cases rounded away from zero, for every length of at
least 1 and every centre with at least one cell of the window on each side,
the sequence `draw_hand` records is the part inside the window of the points
at `r = 1 .. length` (all of them when the window holds every cell within
`length` of the centre); it starts with the point at `r = 1`, which is within
1 cell of the centre; it has a last point; every point, so the last, is
within `length` cells of the centre; and the distance
`max(|row - cy|, |col - cx|)` never decreases from one point to the next. -/
theorem hand_path_distance_real (scr : Screen) (angle : ℝ) (length cy cx : Int)
    (hlen : 1 ≤ length)
    (hcen : 1 ≤ cy ∧ cy + 1 < scr.LINES ∧ 1 ≤ cx ∧ cx + 1 < scr.COLS) :
    (draw_hand (⟨Real.sin, Real.cos, Real.pi⟩ : Libm ℝ) scr angle length cy cx).2 =
        (hand_path (⟨Real.sin, Real.cos, Real.pi⟩ : Libm ℝ) angle length cy cx).filter
          (fun p => decide (scr.inside p.y p.x)) ∧
      (length ≤ cy ∧ cy + length < scr.LINES ∧ length ≤ cx ∧ cx + length < scr.COLS →
        (draw_hand (⟨Real.sin, Real.cos, Real.pi⟩ : Libm ℝ) scr angle length cy cx).2 =
          hand_path (⟨Real.sin, Real.cos, Real.pi⟩ : Libm ℝ) angle length cy cx) ∧
      (draw_hand (⟨Real.sin, Real.cos, Real.pi⟩ : Libm ℝ) scr angle length cy cx).2.head? =
        some (hand_cell (⟨Real.sin, Real.cos, Real.pi⟩ : Libm ℝ) angle cy cx 1) ∧
      center_distance cy cx
        (hand_cell (⟨Real.sin, Real.cos, Real.pi⟩ : Libm ℝ) angle cy cx 1) ≤ 1 ∧
      (∃ q, (draw_hand (⟨Real.sin, Real.cos, Real.pi⟩ : Libm ℝ) scr angle length cy
          cx).2.getLast? = some q ∧ center_distance cy cx q ≤ length) ∧
      (∀ p, p ∈ (draw_hand (⟨Real.sin, Real.cos, Real.pi⟩ : Libm ℝ) scr angle length cy
          cx).2 → center_distance cy cx p ≤ length) ∧
      List.Chain' (fun p q => center_distance cy cx p ≤ center_distance cy cx q)
        (draw_hand (⟨Real.sin, Real.cos, Real.pi⟩ : Libm ℝ) scr angle length cy cx).2 := by
  have hs : -1 ≤ Real.sin angle ∧ Real.sin angle ≤ 1 :=
    ⟨Real.neg_one_le_sin angle, Real.sin_le_one angle⟩
  have hc : -1 ≤ Real.cos angle ∧ Real.cos angle ≤ 1 :=
    ⟨Real.neg_one_le_cos angle, Real.cos_le_one angle⟩
  obtain ⟨-, h2, h3⟩ := hand_points_distance (⟨Real.sin, Real.cos, Real.pi⟩ : Libm ℝ) angle
    length cy cx scr.LINES scr.COLS hs hc
  obtain ⟨g1, g2, g3⟩ := hand_points_margin (⟨Real.sin, Real.cos, Real.pi⟩ : Libm ℝ) angle
    length cy cx scr.LINES scr.COLS hs hc hlen hcen
  have hne : hand_points (⟨Real.sin, Real.cos, Real.pi⟩ : Libm ℝ) angle length cy cx
      scr.LINES scr.COLS ≠ [] := by
    intro e
    rw [e] at g1
    simp at g1
  refine ⟨?_, g3, g1,
    center_distance_le (⟨Real.sin, Real.cos, Real.pi⟩ : Libm ℝ) angle cy cx 1 (by norm_num)
      hs hc,
    ⟨_, List.getLast?_eq_getLast _ hne, h2 _ (List.getLast_mem hne)⟩, h2, h3⟩
  show hand_points (⟨Real.sin, Real.cos, Real.pi⟩ : Libm ℝ) angle length cy cx
      scr.LINES scr.COLS = _
  rw [g2]
  apply List.filter_congr
  intro p _
  unfold Screen.inside
  rfl

/-- C6 (amended) on a 24 by 80 window: the second hand of the clock of
radius 10, length 8, from the centre `(12, 40)` at angle 0. -/
theorem hand_path_distance_real_witness :
    ((1 : Int) ≤ 8 ∧
      ((1 : Int) ≤ 12 ∧ (12 : Int) + 1 < (⟨24, 80, fun _ _ => ' '⟩ : Screen).LINES ∧
        (1 : Int) ≤ 40 ∧ (40 : Int) + 1 < (⟨24, 80, fun _ _ => ' '⟩ : Screen).COLS)) ∧
    ((draw_hand (⟨Real.sin, Real.cos, Real.pi⟩ : Libm ℝ) ⟨24, 80, fun _ _ => ' '⟩ 0 8 12
          40).2 =
        (hand_path (⟨Real.sin, Real.cos, Real.pi⟩ : Libm ℝ) 0 8 12 40).filter
          (fun p => decide ((⟨24, 80, fun _ _ => ' '⟩ : Screen).inside p.y p.x)) ∧
      ((8 : Int) ≤ 12 ∧ (12 : Int) + 8 < (⟨24, 80, fun _ _ => ' '⟩ : Screen).LINES ∧
          (8 : Int) ≤ 40 ∧ (40 : Int) + 8 < (⟨24, 80, fun _ _ => ' '⟩ : Screen).COLS →
        (draw_hand (⟨Real.sin, Real.cos, Real.pi⟩ : Libm ℝ) ⟨24, 80, fun _ _ => ' '⟩ 0 8 12
            40).2 =
          hand_path (⟨Real.sin, Real.cos, Real.pi⟩ : Libm ℝ) 0 8 12 40) ∧
      (draw_hand (⟨Real.sin, Real.cos, Real.pi⟩ : Libm ℝ) ⟨24, 80, fun _ _ => ' '⟩ 0 8 12
          40).2.head? =
        some (hand_cell (⟨Real.sin, Real.cos, Real.pi⟩ : Libm ℝ) 0 12 40 1) ∧
      center_distance 12 40
        (hand_cell (⟨Real.sin, Real.cos, Real.pi⟩ : Libm ℝ) 0 12 40 1) ≤ 1 ∧
      (∃ q, (draw_hand (⟨Real.sin, Real.cos, Real.pi⟩ : Libm ℝ) ⟨24, 80, fun _ _ => ' '⟩ 0 8
          12 40).2.getLast? = some q ∧ center_distance 12 40 q ≤ 8) ∧
      (∀ p, p ∈ (draw_hand (⟨Real.sin, Real.cos, Real.pi⟩ : Libm ℝ)
          ⟨24, 80, fun _ _ => ' '⟩ 0 8 12 40).2 → center_distance 12 40 p ≤ 8) ∧
      List.Chain' (fun p q => center_distance 12 40 p ≤ center_distance 12 40 q)
        (draw_hand (⟨Real.sin, Real.cos, Real.pi⟩ : Libm ℝ) ⟨24, 80, fun _ _ => ' '⟩ 0 8 12
          40).2) :=
  ⟨⟨by decide, by decide⟩,
    hand_path_distance_real ⟨24, 80, fun _ _ => ' '⟩ 0 8 12 40 (by decide) (by decide)⟩

/-! ## The analog loop: radius, degraded state, angles, glyphs -/

section AnalogLoop

variable {K : Type} [LinearOrderedField K] [FloorRing K]

theorem hand_points_length (m : Libm K) (angle : K) (length cy cx LINES COLS : Int)
    (hs : -1 ≤ m.sin angle ∧ m.sin angle ≤ 1) (hc : -1 ≤ m.cos angle ∧ m.cos angle ≤ 1)
    (hlen : 0 ≤ length)
    (hfit : length ≤ cy ∧ cy + length < LINES ∧ length ≤ cx ∧ cx + length < COLS) :
    ((hand_points m angle length cy cx LINES COLS).length : Int) = length := by
  unfold hand_points
  rw [hand_points_from_length m angle cy cx LINES COLS hs hc _ 1 (by norm_num)]
  · omega
  · have : ((length.toNat : Nat) : Int) = length := Int.toNat_of_nonneg hlen
    omega

theorem analog_radius_lt_three (maxy maxx : Int) :
    min (cdiv maxy 2) (cdiv maxx 2) - 2 < 3 ↔ maxy < 10 ∨ maxx < 10 := by
  rw [cdiv_eq _ 2 (by norm_num), cdiv_eq _ 2 (by norm_num)]
  split <;> split <;> omega

/-- The clock's own geometry: with a radius of 3 or more, the centre
`(maxy / 2, maxx / 2)` has the window on every side, the three hand lengths
lie between 1 and the radius, and the window holds every cell within the
radius of the centre, so no hand of the clock is clipped. -/
theorem analog_window_holds_hands (maxy maxx length : Int)
    (hr : 3 ≤ min (cdiv maxy 2) (cdiv maxx 2) - 2)
    (hlen : length ≤ min (cdiv maxy 2) (cdiv maxx 2) - 2) :
    (1 ≤ cdiv maxy 2 ∧ cdiv maxy 2 + 1 < maxy ∧ 1 ≤ cdiv maxx 2 ∧ cdiv maxx 2 + 1 < maxx) ∧
    (length ≤ cdiv maxy 2 ∧ cdiv maxy 2 + length < maxy ∧
      length ≤ cdiv maxx 2 ∧ cdiv maxx 2 + length < maxx) ∧
    (1 ≤ max 1 (cdiv ((min (cdiv maxy 2) (cdiv maxx 2) - 2) * 2) 5) ∧
      max 1 (cdiv ((min (cdiv maxy 2) (cdiv maxx 2) - 2) * 2) 5) ≤
        min (cdiv maxy 2) (cdiv maxx 2) - 2) ∧
    (1 ≤ max 1 (cdiv ((min (cdiv maxy 2) (cdiv maxx 2) - 2) * 3) 5) ∧
      max 1 (cdiv ((min (cdiv maxy 2) (cdiv maxx 2) - 2) * 3) 5) ≤
        min (cdiv maxy 2) (cdiv maxx 2) - 2) ∧
    (1 ≤ max 1 (min (cdiv maxy 2) (cdiv maxx 2) - 2 - 2) ∧
      max 1 (min (cdiv maxy 2) (cdiv maxx 2) - 2 - 2) ≤ min (cdiv maxy 2) (cdiv maxx 2) - 2) := by
  revert hr hlen
  rw [cdiv_eq _ 5 (by norm_num), cdiv_eq _ 5 (by norm_num), cdiv_eq maxy 2 (by norm_num),
    cdiv_eq maxx 2 (by norm_num)]
  intro hr hlen
  split at hr <;> split at hr <;> split <;> split <;> omega

/-- C2: the radius is `min(rows / 2, cols / 2) - 2`, at startup and after a
resize; it is below 3 exactly when the window has fewer than 10 rows or fewer
than 10 columns; the start of the program and a frame that handles a resize
print the too-small message exactly when the radius is below 3 and draw the
static face or a hand exactly when it is not; a frame without resize draws a
hand exactly when the stored radius is not below 3, and keeps the radius. -/
theorem analog_degraded_iff (m : Libm K) (st : AnalogState) (maxy maxx : Int) (tmnow : Tm)
    (tv_nsec : Int) :
    (analog_startup (K := K) maxy maxx).1.radius = min (cdiv maxy 2) (cdiv maxx 2) - 2 ∧
    (analog_frame m st true maxy maxx tmnow tv_nsec).1.radius =
      min (cdiv maxy 2) (cdiv maxx 2) - 2 ∧
    (min (cdiv maxy 2) (cdiv maxx 2) - 2 < 3 ↔ maxy < 10 ∨ maxx < 10) ∧
    (analog_startup (K := K) maxy maxx).2.any AnalogCall.is_too_small_message =
      decide (min (cdiv maxy 2) (cdiv maxx 2) - 2 < 3) ∧
    (analog_startup (K := K) maxy maxx).2.any AnalogCall.draws_clock =
      decide (¬ min (cdiv maxy 2) (cdiv maxx 2) - 2 < 3) ∧
    (analog_frame m st true maxy maxx tmnow tv_nsec).2.any AnalogCall.is_too_small_message =
      decide (min (cdiv maxy 2) (cdiv maxx 2) - 2 < 3) ∧
    (analog_frame m st true maxy maxx tmnow tv_nsec).2.any AnalogCall.draws_clock =
      decide (¬ min (cdiv maxy 2) (cdiv maxx 2) - 2 < 3) ∧
    (analog_frame m st false maxy maxx tmnow tv_nsec).2.any AnalogCall.is_too_small_message =
      false ∧
    (analog_frame m st false maxy maxx tmnow tv_nsec).2.any AnalogCall.draws_clock =
      decide (¬ st.radius < 3) ∧
    (analog_frame m st false maxy maxx tmnow tv_nsec).1.radius = st.radius := by
  have hmsg : ∀ t : Tm, decide (timestr t = "Terminal too small") = false := by
    intro t
    rw [decide_eq_false_iff_not]
    intro e
    have h1 : ':' ∈ (timestr t).data := by
      unfold timestr
      simp only [String.data_append, List.mem_append]
      exact Or.inl (Or.inr (by decide))
    rw [e] at h1
    revert h1
    decide
  refine ⟨rfl, ?_, analog_radius_lt_three maxy maxx, ?_, ?_, ?_, ?_, ?_, ?_, ?_⟩
  · unfold analog_frame
    simp only [if_true]
    split <;> rfl
  · unfold analog_startup
    by_cases h : min (cdiv maxy 2) (cdiv maxx 2) - 2 < 3
    · simp [h, AnalogCall.is_too_small_message]
    · simp [h, AnalogCall.is_too_small_message]
  · unfold analog_startup
    by_cases h : min (cdiv maxy 2) (cdiv maxx 2) - 2 < 3
    · simp [h, AnalogCall.draws_clock]
    · simp [h, AnalogCall.draws_clock]
  · unfold analog_frame
    by_cases h : min (cdiv maxy 2) (cdiv maxx 2) - 2 < 3
    · simp [h, AnalogCall.is_too_small_message]
    · simp [h, AnalogCall.is_too_small_message, hmsg]
  · unfold analog_frame
    by_cases h : min (cdiv maxy 2) (cdiv maxx 2) - 2 < 3
    · simp [h, AnalogCall.draws_clock]
    · simp [h, AnalogCall.draws_clock]
  · unfold analog_frame
    by_cases h : st.radius < 3
    · simp [h]
    · simp [h, AnalogCall.is_too_small_message, hmsg]
  · unfold analog_frame
    by_cases h : st.radius < 3
    · simp [h]
    · simp [h, AnalogCall.draws_clock]
  · unfold analog_frame
    by_cases h : st.radius < 3
    · simp [h]
    · simp [h]

/-! ### The glyph of a hand -/

theorem deg_raise_spec (d : K) :
    0 ≤ deg_raise d ∧ (0 ≤ d → deg_raise d = d) ∧ (d < 0 → deg_raise d < 360) := by
  induction d using deg_raise.induct with
  | case1 d h ih =>
    rw [deg_raise, dif_pos h]
    refine ⟨ih.1, fun h2 => absurd h (not_lt.mpr h2), fun _ => ?_⟩
    by_cases h3 : d + 360 < 0
    · exact ih.2.2 h3
    · push_neg at h3
      rw [ih.2.1 h3]
      linarith
  | case2 d h =>
    rw [deg_raise, dif_neg h]
    push_neg at h
    exact ⟨h, fun _ => rfl, fun h2 => absurd h2 (not_lt.mpr h)⟩

theorem deg_lower_spec (d : K) :
    deg_lower d < 360 ∧ (0 ≤ d → 0 ≤ deg_lower d) ∧ (d < 360 → deg_lower d = d) := by
  induction d using deg_lower.induct with
  | case1 d h ih =>
    rw [deg_lower, dif_pos h]
    refine ⟨ih.1, fun _ => ih.2.1 (by linarith), fun h2 => absurd h (not_le.mpr h2)⟩
  | case2 d h =>
    rw [deg_lower, dif_neg h]
    push_neg at h
    exact ⟨h, fun h2 => h2, fun _ => rfl⟩

/-- The two loops of `draw_hand` end, with the angle in degrees from 0
(included) to 360 (excluded). -/
theorem normalize_deg_range (m : Libm K) (angle : K) :
    0 ≤ normalize_deg m angle ∧ normalize_deg m angle < 360 := by
  unfold normalize_deg
  exact ⟨(deg_lower_spec _).2.1 (deg_raise_spec _).1, (deg_lower_spec _).1⟩

/-- At 9:20:00 the hour hand is at 190 degrees, and so is the minute hand
at 46 minutes 40 seconds past any hour. -/
theorem normalize_deg_at_190 (m : Libm K) (hpi : m.M_PI ≠ 0) (hour : Int) :
    normalize_deg m (ang_hour m ⟨0, 20, 9⟩ 0) = 190 ∧
      normalize_deg m (ang_min m ⟨40, 46, hour⟩ 0) = 190 := by
  have h9 : cmod 9 12 = 9 := by decide
  have e1 : ang_hour m ⟨0, 20, 9⟩ 0 * 180 / m.M_PI = 190 := by
    simp only [ang_hour, time_hour, time_min, time_sec, h9]
    push_cast
    field_simp
    ring
  have e2 : ang_min m ⟨40, 46, hour⟩ 0 * 180 / m.M_PI = 190 := by
    simp only [ang_min, time_min, time_sec]
    push_cast
    field_simp
    ring
  unfold normalize_deg
  rw [e1, e2, deg_raise, dif_neg (by norm_num), deg_lower, dif_neg (by norm_num)]
  exact ⟨rfl, rfl⟩

end AnalogLoop

/-- The bands of `hand_char`: the bar within 10
degrees of the four axes (the upper ends 10, 100, 190, 280 excluded), the
slash strictly between 10 and 80 and strictly between 190 and 260, the
backslash from 100 to 170 and from 280 to 350, and also at exactly 10 and
exactly 190. -/
theorem hand_char_bands {K : Type} [LinearOrderedField K] (d : K) :
    hand_char d =
      if d < 10 ∨ (80 ≤ d ∧ d < 100) ∨ (170 ≤ d ∧ d < 190) ∨ (260 ≤ d ∧ d < 280) ∨ 350 ≤ d
        then '|'
      else if (10 < d ∧ d < 80) ∨ (190 < d ∧ d < 260) then '/'
      else '\\' := by
  unfold hand_char
  by_cases c1 : (d ≥ 350 ∨ d < 10) ∨ (d ≥ 170 ∧ d < 190) ∨ (d ≥ 80 ∧ d < 100) ∨
      (d ≥ 260 ∧ d < 280)
  · have c2 : d < 10 ∨ (80 ≤ d ∧ d < 100) ∨ (170 ≤ d ∧ d < 190) ∨ (260 ≤ d ∧ d < 280) ∨
        350 ≤ d := by
      rcases c1 with (h | h) | h | h | h
      · exact Or.inr (Or.inr (Or.inr (Or.inr h)))
      · exact Or.inl h
      · exact Or.inr (Or.inr (Or.inl h))
      · exact Or.inr (Or.inl h)
      · exact Or.inr (Or.inr (Or.inr (Or.inl h)))
    rw [if_pos c1, if_pos c2]
  · have c2 : ¬ (d < 10 ∨ (80 ≤ d ∧ d < 100) ∨ (170 ≤ d ∧ d < 190) ∨ (260 ≤ d ∧ d < 280) ∨
        350 ≤ d) := by
      rintro (h | h | h | h | h)
      · exact c1 (Or.inl (Or.inr h))
      · exact c1 (Or.inr (Or.inr (Or.inl h)))
      · exact c1 (Or.inr (Or.inl h))
      · exact c1 (Or.inr (Or.inr (Or.inr h)))
      · exact c1 (Or.inl (Or.inl h))
    rw [if_neg c1, if_neg c2]

/-- C9: with a zero sub-second part the angles are
`(value / period) * 2 * pi - pi / 2` with `hour = (tm_hour % 12) + min / 60`
and `min = tm_min + sec / 60`; at 3:00:00 the hour hand is at angle 0, and at
0:00:00 the three hands are at `-pi / 2`. -/
theorem analog_angles {K : Type} [LinearOrderedField K] (m : Libm K) (tmnow : Tm) :
    ang_sec m tmnow 0 = ((tmnow.tm_sec : K) / 60) * 2 * m.M_PI - m.M_PI / 2 ∧
    ang_min m tmnow 0 =
      (((tmnow.tm_min : K) + (tmnow.tm_sec : K) / 60) / 60) * 2 * m.M_PI - m.M_PI / 2 ∧
    ang_hour m tmnow 0 =
      ((((cmod tmnow.tm_hour 12 : Int) : K) +
        ((tmnow.tm_min : K) + (tmnow.tm_sec : K) / 60) / 60) / 12) * 2 * m.M_PI -
          m.M_PI / 2 ∧
    ang_hour m ⟨0, 0, 3⟩ 0 = 0 ∧
    ang_hour m ⟨0, 0, 0⟩ 0 = -m.M_PI / 2 ∧
    ang_min m ⟨0, 0, 0⟩ 0 = -m.M_PI / 2 ∧
    ang_sec m ⟨0, 0, 0⟩ 0 = -m.M_PI / 2 := by
  have h3 : cmod 3 12 = 3 := by decide
  have h0 : cmod 0 12 = 0 := by decide
  refine ⟨?_, ?_, ?_, ?_, ?_, ?_, ?_⟩
  · simp [ang_sec, time_sec]
  · simp [ang_min, time_min, time_sec]
  · simp [ang_hour, time_hour, time_min, time_sec]
  · simp only [ang_hour, time_hour, time_min, time_sec, h3]
    push_cast
    ring
  · simp only [ang_hour, time_hour, time_min, time_sec, h0]
    push_cast
    ring
  · simp only [ang_min, time_min, time_sec]
    push_cast
    ring
  · simp only [ang_sec, time_sec]
    push_cast
    ring

/-- C5 (the code at the failing input): a hand whose angle is 10 degrees,
or -170 degrees (normalised to 190), is drawn with the backslash, although
10 lies in the first quadrant and 190 in the third; over the reals this is
the hour hand at 9:20:00 and the minute hand at 46 minutes 40 seconds. -/
theorem hand_char_at_10_and_190 {K : Type} [LinearOrderedField K] [FloorRing K] :
    deg_lower (deg_raise (10 : K)) = 10 ∧ hand_char (deg_lower (deg_raise (10 : K))) = '\\' ∧
    deg_lower (deg_raise (-170 : K)) = 190 ∧
      hand_char (deg_lower (deg_raise (-170 : K))) = '\\' ∧
    hand_char (normalize_deg (⟨Real.sin, Real.cos, Real.pi⟩ : Libm ℝ)
      (ang_hour (⟨Real.sin, Real.cos, Real.pi⟩ : Libm ℝ) ⟨0, 20, 9⟩ 0)) = '\\' ∧
    hand_char (normalize_deg (⟨Real.sin, Real.cos, Real.pi⟩ : Libm ℝ)
      (ang_min (⟨Real.sin, Real.cos, Real.pi⟩ : Libm ℝ) ⟨40, 46, 12⟩ 0)) = '\\' := by
  have e1 : deg_lower (deg_raise (10 : K)) = 10 := by
    rw [deg_raise, dif_neg (by norm_num), deg_lower, dif_neg (by norm_num)]
  have e2 : deg_lower (deg_raise (-170 : K)) = 190 := by
    rw [deg_raise, dif_pos (by norm_num), deg_raise, dif_neg (by norm_num), deg_lower,
      dif_neg (by norm_num)]
    norm_num
  have e3 := normalize_deg_at_190 (⟨Real.sin, Real.cos, Real.pi⟩ : Libm ℝ) Real.pi_ne_zero 12
  have c10 : hand_char (10 : K) = '\\' := by
    unfold hand_char
    norm_num
  have c190 : hand_char (190 : K) = '\\' := by
    unfold hand_char
    norm_num
  have r190 : hand_char (190 : ℝ) = '\\' := by
    unfold hand_char
    norm_num
  refine ⟨e1, ?_, e2, ?_, ?_, ?_⟩
  · rw [e1]; exact c10
  · rw [e2]; exact c190
  · rw [e3.1]; exact r190
  · rw [e3.2]; exact r190

end Clock
